import Mathlib

/-!
Shallow embedding of `psm_utils/peptidoform.py` (the `Peptidoform` class and its
exception hierarchy), together with theorems settling the specification claims.

Modelling conventions:
* A pyteomics `Composition` (a dict from element symbol to integer count with
  element-wise `+`) is modelled as a total function `String → Int`; Python dict
  equality is extensional equality of these functions.
* Python floats are modelled as exact rationals `ℚ`.
* A pyteomics modification tag is modelled by its label (`value`) and its lazily
  resolved composition and mass; a resolution failure (the `AttributeError` /
  `KeyError` that pyteomics raises on `tag.composition` / `tag.mass` access) is
  modelled by `none`.
* External lookup tables and collaborators (`mass.std_aa_comp`, `mass.std_aa_mass`,
  `mass.nist_mass`, `proforma.process_tag_tokens`, `proforma.to_proforma`, Python's
  string hash) are abstracted into an environment record `Env`; all theorems are
  universally quantified over it.
* Raising an exception is modelled with `Except PyExc`; `PyExc` records the Python
  exception class and its message, and `isSubclassOfPeptidoformException` reflects
  the class hierarchy declared at the bottom of the source file (plus the relevant
  builtins, which are not part of that hierarchy).
-/

namespace PsmUtils

/-- Element → count mapping, pyteomics `mass.Composition` with element-wise add. -/
abbrev Composition := String → Int

/-- `mass.Composition({"H": 1})`, the N-terminus starting composition. -/
def compH : Composition := fun e => if e = "H" then 1 else 0

/-- `mass.Composition({"H": 1, "O": 1})`, the C-terminus starting composition. -/
def compHO : Composition := fun e => if e = "H" then 1 else if e = "O" then 1 else 0

/-- Python exception classes that can surface from the modelled code.
`psmUtilsException`, `peptidoformException`, `ambiguousResidueException` and
`modificationException` are the classes defined by psm_utils; the others are
Python builtins. -/
inductive PyExcClass where
  | notImplementedError
  | typeError
  | attributeError
  | keyError
  | psmUtilsException
  | peptidoformException
  | ambiguousResidueException
  | modificationException
deriving DecidableEq, Repr

/-- A raised Python exception: its class and its message. -/
structure PyExc where
  cls : PyExcClass
  msg : String
deriving DecidableEq, Repr

/-- Subclass test against `PeptidoformException` (the shared domain-error
category): per the source, `AmbiguousResidueException` and
`ModificationException` extend `PeptidoformException`; the Python builtins do
not. -/
def isSubclassOfPeptidoformException : PyExcClass → Bool
  | .peptidoformException => true
  | .ambiguousResidueException => true
  | .modificationException => true
  | _ => false

/-- A resolved modification tag: its label (`tag.value`) and its lazily resolved
composition and monoisotopic mass (`none` models the `AttributeError`/`KeyError`
raised on access when the tag cannot be resolved). -/
structure Tag where
  value : String
  composition : Option Composition
  mass : Option ℚ

/-- pyteomics `proforma.ModificationRule`: a fixed-modification rule, i.e. a
modification tag plus the residues it targets.  Per the spec data model it is a
`(ModificationTag, set<Residue>)` pair; it has no `value` attribute of its own. -/
structure ModificationRule where
  modification_tag : Tag
  targets : List String

/-- The `properties` dict returned by `proforma.parse`.  `n_term`, `c_term`,
`unlocalized_modifications` and `labile_modifications` are only ever iterated
behind truthiness guards in the source, so Python `None` and `[]` are
indistinguishable there and both are modelled as `[]`.  `fixed_modifications`
is modelled as an `Option` because `apply_fixed_modifications` sets it to
`None` and the resolvers iterate it without a guard.  `charge_state` models
the charge integer of the optional charge object, `isotopes` the list of
isotope declarations (truthy iff nonempty). -/
structure Properties where
  n_term : List Tag
  c_term : List Tag
  unlocalized_modifications : List Tag
  labile_modifications : List Tag
  fixed_modifications : Option (List ModificationRule)
  charge_state : Option Int
  isotopes : List String

/-- The `Peptidoform` state: the parsed sequence (one `(residue, tags)` pair per
position, N-to-C order) and the sequence-wide properties. -/
structure Peptidoform where
  parsed_sequence : List (String × List Tag)
  properties : Properties

/-- An arbitrary Python object on the right of `==`: it either has a `proforma`
attribute (a string) or it does not. -/
structure PyObject where
  proforma : Option String

/-- External collaborators and lookup tables, abstracted: the standard residue
composition/mass tables, the element mass table entries the source reads, the
tag constructor `proforma.process_tag_tokens`, the serializer
`proforma.to_proforma`, and Python's string hash. -/
structure Env where
  std_aa_comp : String → Option Composition
  std_aa_mass : String → Option ℚ
  element_mass : String → ℚ
  nist_mass_H1 : ℚ
  process_tag_tokens : String → Tag
  to_proforma : List (String × List Tag) → Properties → String
  pyhash : String → Int

/-- `Peptidoform.__init__`: store the parse result, then fail fast with the
builtin `NotImplementedError` when `properties["isotopes"]` is truthy. -/
def mkPeptidoform (parsed : List (String × List Tag)) (props : Properties) :
    Except PyExc Peptidoform :=
  if props.isotopes.isEmpty then .ok ⟨parsed, props⟩
  else .error ⟨.notImplementedError,
    "Peptidoforms with isotopes are currently not supported."⟩

/-- `Peptidoform.proforma`: delegate to the external serializer. -/
def proformaText (env : Env) (p : Peptidoform) : String :=
  env.to_proforma p.parsed_sequence p.properties

/-- `Peptidoform.__hash__`: hash of the canonical serialized text. -/
def pfHash (env : Env) (p : Peptidoform) : Int :=
  env.pyhash (proformaText env p)

/-- `Peptidoform.__eq__`: compare `self.proforma` with `__o.proforma`; when the
other object has no `proforma` attribute the `AttributeError` is caught and the
code executes `raise NotImplemented("Object is not a Peptidoform")` — calling
the `NotImplemented` sentinel raises a builtin `TypeError` at runtime, so the
comparison raises instead of returning a boolean. -/
def pfEq (env : Env) (p : Peptidoform) (o : PyObject) : Except PyExc Bool :=
  match o.proforma with
  | some s => .ok (decide (proformaText env p = s))
  | none => .error ⟨.typeError, "NotImplemented is not callable"⟩

/-- View a Peptidoform as the right-hand operand of `==`: it has a `proforma`
attribute holding its canonical text. -/
def Peptidoform.asObject (env : Env) (p : Peptidoform) : PyObject :=
  ⟨some (proformaText env p)⟩

/-- `Peptidoform.sequence`: concatenation of the residue codes. -/
def strippedSequence (p : Peptidoform) : String :=
  String.join (p.parsed_sequence.map (fun pos => pos.1))

/-- `Peptidoform.precursor_charge`: the charge if charge information is present,
else `None` (the source turns the `AttributeError`/`KeyError` of the missing
charge object into `None`). -/
def precursor_charge (p : Peptidoform) : Option Int :=
  p.properties.charge_state

/-- `ModificationException` raised at a composition-resolution site. -/
def modCompExc (label : String) : PyExc :=
  ⟨.modificationException,
    "Cannot resolve composition for modification " ++ label ++ "."⟩

/-- `ModificationException` raised at a mass-resolution site. -/
def modMassExc (label : String) : PyExc :=
  ⟨.modificationException,
    "Cannot resolve mass for modification " ++ label ++ "."⟩

/-- `AmbiguousResidueException` raised at a composition-resolution site. -/
def ambCompExc (aa : String) : PyExc :=
  ⟨.ambiguousResidueException,
    "Cannot resolve composition for amino acid " ++ aa ++ "."⟩

/-- `AmbiguousResidueException` raised at a mass-resolution site. -/
def ambMassExc (aa : String) : PyExc :=
  ⟨.ambiguousResidueException,
    "Cannot resolve mass for amino acid " ++ aa ++ "."⟩

/-- One iteration of the tag loops wrapped in `try/except` in the source:
`acc += tag.composition`, converting a resolution failure into a
`ModificationException` carrying the tag's label. -/
def addTagComp (acc : Composition) (t : Tag) : Except PyExc Composition :=
  match t.composition with
  | some c => .ok (acc + c)
  | none => .error (modCompExc t.value)

/-- Mass variant of `addTagComp`. -/
def addTagMass (acc : ℚ) (t : Tag) : Except PyExc ℚ :=
  match t.mass with
  | some m => .ok (acc + m)
  | none => .error (modMassExc t.value)

/-- Raw `tag.composition` attribute access with no enclosing `try/except` (used
while building the fixed-rule lookup): an unresolvable tag propagates the raw
lookup error (pyteomics raises `KeyError` or `AttributeError`; both are modelled
as `KeyError`, which is what every `except` clause in the source also catches). -/
def Tag.rawComposition (t : Tag) : Except PyExc Composition :=
  match t.composition with
  | some c => .ok c
  | none => .error ⟨.keyError, t.value⟩

/-- Raw `tag.mass` attribute access with no enclosing `try/except`. -/
def Tag.rawMass (t : Tag) : Except PyExc ℚ :=
  match t.mass with
  | some m => .ok m
  | none => .error ⟨.keyError, t.value⟩

/-- The inner loop of lines 83–85 (`for aa in rule.targets: fixed_rules[aa] =
rule.modification_tag.composition`) for one tag over a list of target residues:
each iteration accesses the tag's composition (outside any `try/except`) and
overwrites the dict entry of that target. -/
def fixedCompUpdate (tag : Tag) (m : String → Option Composition) :
    List String → Except PyExc (String → Option Composition) :=
  fun ts =>
    ts.foldlM
      (fun m aa => do
        let c ← tag.rawComposition
        pure (fun x => if x = aa then some c else m x))
      m

/-- One iteration of the outer loop of lines 82–85. -/
def fixedCompStep (m : String → Option Composition) (rule : ModificationRule) :
    Except PyExc (String → Option Composition) :=
  fixedCompUpdate rule.modification_tag m rule.targets

/-- Lines 82–85: `for rule in fixed_modifications: for aa in rule.targets:
fixed_rules[aa] = rule.modification_tag.composition`.  The dict is modelled as
`String → Option Composition`; assignment overwrites, so a later rule targeting
the same residue wins. -/
def buildFixedComp (rules : List ModificationRule) :
    Except PyExc (String → Option Composition) :=
  rules.foldlM fixedCompStep (fun _ => none)

/-- Mass variant of `fixedCompUpdate` (lines 164–167). -/
def fixedMassUpdate (tag : Tag) (m : String → Option ℚ) :
    List String → Except PyExc (String → Option ℚ) :=
  fun ts =>
    ts.foldlM
      (fun m aa => do
        let q ← tag.rawMass
        pure (fun x => if x = aa then some q else m x))
      m

/-- Mass variant of `fixedCompStep`. -/
def fixedMassStep (m : String → Option ℚ) (rule : ModificationRule) :
    Except PyExc (String → Option ℚ) :=
  fixedMassUpdate rule.modification_tag m rule.targets

/-- Mass variant of `buildFixedComp` (lines 164–167). -/
def buildFixedMass (rules : List ModificationRule) :
    Except PyExc (String → Option ℚ) :=
  rules.foldlM fixedMassStep (fun _ => none)

/-- Body of the per-position loop of `sequential_composition` (lines 102–123):
start from the standard residue composition (failure →
`AmbiguousResidueException`), add the fixed-rule composition if the residue has
one, then add every local tag's composition in list order (failure →
`ModificationException`). -/
def positionComp (env : Env) (fixed_rules : String → Option Composition)
    (aa : String) (tags : List Tag) : Except PyExc Composition := do
  let base ← match env.std_aa_comp aa with
    | some b => Except.ok b
    | none => Except.error (ambCompExc aa)
  let withFixed := match fixed_rules aa with
    | some c => base + c
    | none => base
  tags.foldlM addTagComp withFixed

/-- Body of the per-position loop of `sequential_theoretical_mass`
(lines 184–204). -/
def positionMass (env : Env) (fixed_rules : String → Option ℚ)
    (aa : String) (tags : List Tag) : Except PyExc ℚ := do
  let base ← match env.std_aa_mass aa with
    | some b => Except.ok b
    | none => Except.error (ambMassExc aa)
  let withFixed := match fixed_rules aa with
    | some q => base + q
    | none => base
  tags.foldlM addTagMass withFixed

/-- `Peptidoform.sequential_composition` (lines 78–137).  Iterating a `None`
`fixed_modifications` raises the builtin `TypeError`, as in Python. -/
def sequential_composition (env : Env) (p : Peptidoform) :
    Except PyExc (List Composition) := do
  let rules ← match p.properties.fixed_modifications with
    | some rs => Except.ok rs
    | none => Except.error ⟨.typeError, "NoneType object is not iterable"⟩
  let fixed_rules ← buildFixedComp rules
  let n_term ← p.properties.n_term.foldlM addTagComp compH
  let body ← p.parsed_sequence.mapM (fun pos => positionComp env fixed_rules pos.1 pos.2)
  let c_term ← p.properties.c_term.foldlM addTagComp compHO
  pure (n_term :: body ++ [c_term])

/-- `Peptidoform.composition` (lines 139–159): element-wise sum of
`sequential_composition`, then the labile and unlocalized tags, each behind a
`try/except` converting failures into `ModificationException`. -/
def wholeComposition (env : Env) (p : Peptidoform) : Except PyExc Composition := do
  let l ← sequential_composition env p
  let c := l.foldl (fun a b => a + b) (fun _ => (0 : Int))
  let c ← p.properties.labile_modifications.foldlM addTagComp c
  let c ← p.properties.unlocalized_modifications.foldlM addTagComp c
  pure c

/-- `Peptidoform.sequential_theoretical_mass` (lines 161–218).  The terminal
starting masses are `Composition({"H": 1}).mass()` and
`Composition({"H": 1, "O": 1}).mass()`, i.e. the element-table masses of one H
and of one H plus one O. -/
def sequential_theoretical_mass (env : Env) (p : Peptidoform) :
    Except PyExc (List ℚ) := do
  let rules ← match p.properties.fixed_modifications with
    | some rs => Except.ok rs
    | none => Except.error ⟨.typeError, "NoneType object is not iterable"⟩
  let fixed_rules ← buildFixedMass rules
  let n_term ← p.properties.n_term.foldlM addTagMass (env.element_mass "H")
  let body ← p.parsed_sequence.mapM (fun pos => positionMass env fixed_rules pos.1 pos.2)
  let c_term ← p.properties.c_term.foldlM addTagMass
    (env.element_mass "H" + env.element_mass "O")
  pure (n_term :: body ++ [c_term])

/-- `Peptidoform.theoretical_mass` (lines 220–238): sum of
`sequential_theoretical_mass`, then the labile and unlocalized tags. -/
def theoretical_mass (env : Env) (p : Peptidoform) : Except PyExc ℚ := do
  let l ← sequential_theoretical_mass env p
  let m := l.foldl (fun a b => a + b) (0 : ℚ)
  let m ← p.properties.labile_modifications.foldlM addTagMass m
  let m ← p.properties.unlocalized_modifications.foldlM addTagMass m
  pure m

/-- `Peptidoform.theoretical_mz` (lines 240–249): `None` when the precursor
charge is absent or zero (Python truthiness), else
`(theoretical_mass + nist_mass["H"][1][0] * charge) / charge`. -/
def theoretical_mz (env : Env) (p : Peptidoform) : Except PyExc (Option ℚ) :=
  match precursor_charge p with
  | none => .ok none
  | some c =>
    if c = 0 then .ok none
    else do
      let m ← theoretical_mass env p
      pure (some ((m + env.nist_mass_H1 * (c : ℚ)) / (c : ℚ)))

/-- The inner helper `_rename_modification_list` of `rename_modifications`
(lines 278–285), applied to a list of tags: a tag whose label is a key of the
mapping is replaced by `proforma.process_tag_tokens(mapping[label])`, any other
tag is kept.  The Python dict mapping is modelled as an association list. -/
def renameModificationList (env : Env) (mapping : List (String × String))
    (mods : List Tag) : List Tag :=
  mods.map (fun mod =>
    match mapping.find? (fun kv => kv.1 == mod.value) with
    | some kv => env.process_tag_tokens kv.2
    | none => mod)

/-- `Peptidoform.rename_modifications` (lines 251–304).  The per-position lists
and the `n_term`, `c_term`, `unlocalized_modifications` and
`labile_modifications` lists are rewritten through `_rename_modification_list`
(each behind a truthiness guard; rewriting `[]` is the identity, so the guard is
immaterial there).  For `fixed_modifications` the source passes the list of
`ModificationRule` objects to the same tag-rewriting helper; a rule has no
`value` attribute, so when the rule list is nonempty the first iteration raises
a builtin `AttributeError` (in Python the earlier in-place rewrites have already
happened at that point; the model returns only the error). -/
def rename_modifications (env : Env) (mapping : List (String × String))
    (p : Peptidoform) : Except PyExc Peptidoform :=
  let seq := p.parsed_sequence.map (fun pos =>
    if pos.2.isEmpty then pos
    else (pos.1, renameModificationList env mapping pos.2))
  let props := p.properties
  let props := { props with
    n_term := renameModificationList env mapping props.n_term,
    c_term := renameModificationList env mapping props.c_term,
    unlocalized_modifications :=
      renameModificationList env mapping props.unlocalized_modifications,
    labile_modifications :=
      renameModificationList env mapping props.labile_modifications }
  match props.fixed_modifications with
  | some (_ :: _) =>
    .error ⟨.attributeError, "ModificationRule object has no attribute value"⟩
  | _ => .ok ⟨seq, props⟩

/-- `Peptidoform.add_fixed_modifications` (lines 306–333): resolve each
`(label, targets)` pair into a `ModificationRule` and append to (or initialize)
`fixed_modifications`. -/
def add_fixed_modifications (env : Env)
    (modification_rules : List (String × List String)) (p : Peptidoform) :
    Peptidoform :=
  let newRules := modification_rules.map
    (fun r => ModificationRule.mk (env.process_tag_tokens r.1) r.2)
  match p.properties.fixed_modifications with
  | some (r :: rs) =>
    { p with properties :=
      { p.properties with fixed_modifications := some ((r :: rs) ++ newRules) } }
  | _ =>
    { p with properties :=
      { p.properties with fixed_modifications := some newRules } }

/-- Lines 356–363 of `apply_fixed_modifications`: `target_aa → list of tags`
dict built by iterating the rules in order and APPENDING each rule's tag under
every one of its target residues.  A key is present in the Python dict exactly
when its list is nonempty, so the dict is modelled as a total function into
lists with `[]` for absent keys. -/
def buildRuleDict (rules : List ModificationRule) : String → List Tag :=
  rules.foldl
    (fun d rule =>
      rule.targets.foldl
        (fun d aa => fun x =>
          if x = aa then d aa ++ [rule.modification_tag] else d x)
        d)
    (fun _ => [])

/-- `Peptidoform.apply_fixed_modifications` (lines 335–374): when
`fixed_modifications` is truthy, append the accumulated tag list of each target
residue to every matching position's local modification list (installing the
list when the position had none), then set `fixed_modifications` to `None`;
otherwise do nothing. -/
def apply_fixed_modifications (p : Peptidoform) : Peptidoform :=
  match p.properties.fixed_modifications with
  | some (r :: rs) =>
    let d := buildRuleDict (r :: rs)
    { parsed_sequence := p.parsed_sequence.map (fun pos =>
        if (d pos.1).isEmpty then pos
        else if pos.2.isEmpty then (pos.1, d pos.1)
        else (pos.1, pos.2 ++ d pos.1)),
      properties := { p.properties with fixed_modifications := none } }
  | _ => p

/-- The last rule of `rules` whose target list contains `aa`, i.e. the rule whose
value survives in the overwrite-on-duplicate lookup of lines 82–85/164–167. -/
def lastRuleFor (rules : List ModificationRule) (aa : String) :
    Option ModificationRule :=
  rules.foldl (fun acc r => if aa ∈ r.targets then some r else acc) none

/-- Resolve every element of a list, `none` as soon as one element fails
(structural recursion, used in theorem statements). -/
def mapOption {α β : Type} (g : α → Option β) : List α → Option (List β)
  | [] => some []
  | a :: l =>
    match g a with
    | none => none
    | some b =>
      match mapOption g l with
      | none => none
      | some bs => some (b :: bs)

/-- Closed form of one entry of `sequential_composition` for a resolvable
position: standard residue composition, plus the (single) fixed-rule lookup if
present, plus the local tags' compositions. -/
def positionCompSpec (env : Env) (m : String → Option Composition)
    (pos : String × List Tag) : Option Composition :=
  match env.std_aa_comp pos.1, mapOption Tag.composition pos.2 with
  | some b, some cs => some (b + (m pos.1).getD 0 + cs.sum)
  | _, _ => none

/-- Mass analog of `positionCompSpec`. -/
def positionMassSpec (env : Env) (m : String → Option ℚ)
    (pos : String × List Tag) : Option ℚ :=
  match env.std_aa_mass pos.1, mapOption Tag.mass pos.2 with
  | some b, some qs => some (b + (m pos.1).getD 0 + qs.sum)
  | _, _ => none

section ListLemmas

variable {α β ε : Type}

theorem foldl_add_eq_sum {M : Type} [AddMonoid M] :
    ∀ (l : List M) (init : M), l.foldl (fun a b => a + b) init = init + l.sum := by
  intro l
  induction l with
  | nil => intro init; simp
  | cons c cs ih => intro init; simp [ih, add_assoc]

theorem mapOption_length (g : α → Option β) :
    ∀ (l : List α) (out : List β), mapOption g l = some out → out.length = l.length := by
  intro l
  induction l with
  | nil =>
    intro out h
    rw [mapOption] at h
    cases h
    rfl
  | cons a l ih =>
    intro out h
    rw [mapOption] at h
    cases hga : g a with
    | none => rw [hga] at h; cases h
    | some b =>
      rw [hga] at h
      cases hrest : mapOption g l with
      | none => rw [hrest] at h; cases h
      | some bs =>
        rw [hrest] at h
        cases h
        simp [ih bs hrest]

theorem mapOption_mem_isSome (g : α → Option β) :
    ∀ (l : List α) (out : List β), mapOption g l = some out →
      ∀ a, a ∈ l → (g a).isSome := by
  intro l
  induction l with
  | nil => intro out _ a ha; cases ha
  | cons a l ih =>
    intro out h x hx
    rw [mapOption] at h
    cases hga : g a with
    | none => rw [hga] at h; cases h
    | some b =>
      rw [hga] at h
      cases hrest : mapOption g l with
      | none => rw [hrest] at h; cases h
      | some bs =>
        rcases List.mem_cons.mp hx with rfl | hx'
        · simp [hga]
        · exact ih bs hrest x hx'

theorem mapM_except_of_pointwise (f : α → Except ε β) (g : α → Option β)
    (h : ∀ a b, g a = some b → f a = .ok b) :
    ∀ (l : List α) (out : List β), mapOption g l = some out → l.mapM f = .ok out := by
  intro l
  induction l with
  | nil =>
    intro out hout
    rw [mapOption] at hout
    cases hout
    rw [List.mapM_nil]
    rfl
  | cons a l ih =>
    intro out hout
    rw [mapOption] at hout
    cases hga : g a with
    | none => rw [hga] at hout; cases hout
    | some b =>
      rw [hga] at hout
      cases hrest : mapOption g l with
      | none => rw [hrest] at hout; cases hout
      | some bs =>
        rw [hrest] at hout
        cases hout
        rw [List.mapM_cons, h a b hga]
        simp only [bind, Except.bind]
        rw [ih bs hrest]
        rfl

theorem mapM_except_error_mem (f : α → Except ε β) :
    ∀ (l : List α) (e : ε), l.mapM f = .error e → ∃ a, a ∈ l ∧ f a = .error e := by
  intro l
  induction l with
  | nil =>
    intro e h
    rw [List.mapM_nil] at h
    cases h
  | cons a l ih =>
    intro e h
    simp only [List.mapM_cons] at h
    cases hfa : f a with
    | error e1 =>
      rw [hfa] at h
      simp only [bind, Except.bind] at h
      cases h
      exact ⟨a, by simp, hfa⟩
    | ok b =>
      rw [hfa] at h
      simp only [bind, Except.bind] at h
      cases hrest : l.mapM f with
      | error e1 =>
        rw [hrest] at h
        simp only [bind, Except.bind] at h
        cases h
        obtain ⟨x, hx, hfx⟩ := ih _ hrest
        exact ⟨x, by simp [hx], hfx⟩
      | ok bs =>
        rw [hrest] at h
        simp [bind, Except.bind, pure, Except.pure] at h

theorem mapM_except_ok_mem (f : α → Except ε β) :
    ∀ (l : List α) (out : List β), l.mapM f = .ok out →
      ∀ a, a ∈ l → ∃ b, f a = .ok b := by
  intro l
  induction l with
  | nil => intro out _ a ha; cases ha
  | cons a l ih =>
    intro out h x hx
    simp only [List.mapM_cons] at h
    cases hfa : f a with
    | error e' => rw [hfa] at h; simp [bind, Except.bind] at h
    | ok b =>
      rw [hfa] at h
      simp only [bind, Except.bind] at h
      cases hrest : l.mapM f with
      | error e' => rw [hrest] at h; simp [bind, Except.bind] at h
      | ok bs =>
        rcases List.mem_cons.mp hx with rfl | hx'
        · exact ⟨b, hfa⟩
        · exact ih bs hrest x hx'

end ListLemmas

section CompLemmas

theorem foldlM_addTagComp_nil (init : Composition) :
    List.foldlM addTagComp init [] = .ok init := by
  rw [List.foldlM_nil]; rfl

theorem foldlM_addTagComp_cons (t : Tag) (ts : List Tag) (init : Composition) :
    List.foldlM addTagComp init (t :: ts) =
      match t.composition with
      | some x => List.foldlM addTagComp (init + x) ts
      | none => .error (modCompExc t.value) := by
  rw [List.foldlM_cons]
  cases ht : t.composition <;> simp [addTagComp, ht, bind, Except.bind]

theorem foldlM_addTagComp_ok_iff :
    ∀ (ts : List Tag) (init c : Composition),
      ts.foldlM addTagComp init = .ok c ↔
        ∃ cs, mapOption Tag.composition ts = some cs ∧ c = init + cs.sum := by
  intro ts
  induction ts with
  | nil =>
    intro init c
    rw [foldlM_addTagComp_nil]
    constructor
    · intro h
      cases h
      exact ⟨[], rfl, by simp⟩
    · rintro ⟨cs, hcs, rfl⟩
      rw [mapOption] at hcs
      cases hcs
      simp
  | cons t ts ih =>
    intro init c
    rw [foldlM_addTagComp_cons]
    cases ht : t.composition with
    | none =>
      constructor
      · intro h; cases h
      · rintro ⟨cs, hcs, rfl⟩
        rw [mapOption, ht] at hcs
        cases hcs
    | some x =>
      constructor
      · intro h
        obtain ⟨cs, hcs, rfl⟩ := (ih (init + x) c).mp h
        exact ⟨x :: cs, by rw [mapOption, ht, hcs], by simp [add_assoc]⟩
      · rintro ⟨cs, hcs, rfl⟩
        rw [mapOption, ht] at hcs
        cases hrest : mapOption Tag.composition ts with
        | none => rw [hrest] at hcs; cases hcs
        | some cs' =>
          rw [hrest] at hcs
          cases hcs
          show List.foldlM addTagComp (init + x) ts = Except.ok (init + (x :: cs').sum)
          rw [(ih (init + x) _).mpr ⟨cs', hrest, rfl⟩]
          simp [add_assoc]

theorem foldlM_addTagComp_error :
    ∀ (ts : List Tag) (init : Composition) (e : PyExc),
      ts.foldlM addTagComp init = .error e →
        ∃ t, t ∈ ts ∧ t.composition = none ∧ e = modCompExc t.value := by
  intro ts
  induction ts with
  | nil =>
    intro init e h
    rw [foldlM_addTagComp_nil] at h
    cases h
  | cons t ts ih =>
    intro init e h
    rw [foldlM_addTagComp_cons] at h
    cases ht : t.composition with
    | none =>
      rw [ht] at h
      cases h
      exact ⟨t, by simp, ht, rfl⟩
    | some x =>
      rw [ht] at h
      obtain ⟨t', ht', hc', he'⟩ := ih _ _ h
      exact ⟨t', by simp [ht'], hc', he'⟩

theorem positionComp_ok_iff (env : Env) (m : String → Option Composition)
    (aa : String) (tags : List Tag) (c : Composition) :
    positionComp env m aa tags = .ok c ↔
      positionCompSpec env m (aa, tags) = some c := by
  cases hb : env.std_aa_comp aa with
  | none =>
    simp only [positionComp, positionCompSpec, hb, bind, Except.bind]
    constructor
    · intro h; cases h
    · intro h; cases h
  | some b =>
    simp only [positionComp, positionCompSpec, hb, bind, Except.bind]
    rw [foldlM_addTagComp_ok_iff]
    have hw : (match m aa with
        | some c => b + c
        | none => b) = b + (m aa).getD 0 := by
      cases m aa <;> simp
    rw [hw]
    constructor
    · rintro ⟨cs, hcs, rfl⟩
      simp [hcs]
    · intro h
      cases hcs : mapOption Tag.composition tags with
      | none => rw [hcs] at h; cases h
      | some cs =>
        rw [hcs] at h
        cases h
        exact ⟨cs, rfl, rfl⟩

theorem positionComp_error_char (env : Env) (m : String → Option Composition)
    (aa : String) (tags : List Tag) (e : PyExc) :
    positionComp env m aa tags = .error e →
      (env.std_aa_comp aa = none ∧ e = ambCompExc aa) ∨
        ∃ t, t ∈ tags ∧ t.composition = none ∧ e = modCompExc t.value := by
  intro h
  cases hb : env.std_aa_comp aa with
  | none =>
    simp only [positionComp, hb, bind, Except.bind] at h
    cases h
    exact Or.inl ⟨rfl, rfl⟩
  | some b =>
    simp only [positionComp, hb, bind, Except.bind] at h
    exact Or.inr (foldlM_addTagComp_error _ _ _ h)

theorem fixedCompUpdate_nil (tag : Tag) (m : String → Option Composition) :
    fixedCompUpdate tag m [] = .ok m := by
  rw [fixedCompUpdate, List.foldlM_nil]; rfl

theorem fixedCompUpdate_cons (tag : Tag) (m : String → Option Composition)
    (t : String) (ts : List String) :
    fixedCompUpdate tag m (t :: ts) =
      match tag.composition with
      | some c => fixedCompUpdate tag (fun x => if x = t then some c else m x) ts
      | none => .error ⟨.keyError, tag.value⟩ := by
  cases hc : tag.composition with
  | none =>
    rw [fixedCompUpdate, List.foldlM_cons]
    simp [Tag.rawComposition, hc, bind, Except.bind]
  | some c =>
    simp only [fixedCompUpdate]
    rw [List.foldlM_cons]
    simp only [Tag.rawComposition, hc, bind, Except.bind, pure, Except.pure]

theorem fixedCompUpdate_ok_char (tag : Tag) (c : Composition)
    (hc : tag.composition = some c) :
    ∀ (ts : List String) (m : String → Option Composition),
      ∃ m', fixedCompUpdate tag m ts = .ok m' ∧
        ∀ aa, m' aa = if aa ∈ ts then some c else m aa := by
  intro ts
  induction ts with
  | nil =>
    intro m
    exact ⟨m, fixedCompUpdate_nil tag m, by simp⟩
  | cons t ts ih =>
    intro m
    obtain ⟨m', hm', hchar⟩ := ih (fun x => if x = t then some c else m x)
    refine ⟨m', ?_, ?_⟩
    · rw [fixedCompUpdate_cons, hc]
      exact hm'
    · intro aa
      rw [hchar aa]
      by_cases h1 : aa ∈ ts
      · simp [h1]
      · by_cases h2 : aa = t <;> simp [h1, h2]

theorem fixedCompUpdate_error (tag : Tag) (hc : tag.composition = none)
    (t : String) (ts : List String) (m : String → Option Composition) :
    fixedCompUpdate tag m (t :: ts) = .error ⟨.keyError, tag.value⟩ := by
  rw [fixedCompUpdate_cons, hc]

theorem lastRuleFor_init (aa : String) :
    ∀ (rs : List ModificationRule) (acc0 : Option ModificationRule),
      rs.foldl (fun acc r => if aa ∈ r.targets then some r else acc) acc0 =
        match lastRuleFor rs aa with
        | some x => some x
        | none => acc0 := by
  intro rs
  induction rs with
  | nil => intro acc0; simp [lastRuleFor]
  | cons r rs ih =>
    intro acc0
    rw [lastRuleFor, List.foldl_cons, List.foldl_cons]
    rw [ih (if aa ∈ r.targets then some r else acc0)]
    rw [show rs.foldl (fun acc r => if aa ∈ r.targets then some r else acc)
      (if aa ∈ r.targets then some r else none) =
        match lastRuleFor rs aa with
        | some x => some x
        | none => if aa ∈ r.targets then some r else none from ih _]
    cases lastRuleFor rs aa with
    | some x => rfl
    | none => by_cases h : aa ∈ r.targets <;> simp [h]

theorem buildFixedComp_char_aux :
    ∀ (rules : List ModificationRule) (m0 m : String → Option Composition),
      rules.foldlM fixedCompStep m0 = .ok m →
        ∀ aa, m aa =
          match lastRuleFor rules aa with
          | some r => r.modification_tag.composition
          | none => m0 aa := by
  intro rules
  induction rules with
  | nil =>
    intro m0 m h aa
    rw [List.foldlM_nil] at h
    cases h
    simp [lastRuleFor]
  | cons r rs ih =>
    intro m0 m h aa
    rw [List.foldlM_cons] at h
    have hlast : lastRuleFor (r :: rs) aa =
        match lastRuleFor rs aa with
        | some x => some x
        | none => if aa ∈ r.targets then some r else none := by
      rw [lastRuleFor, List.foldl_cons]
      exact lastRuleFor_init aa rs _
    cases hc : r.modification_tag.composition with
    | some c =>
      obtain ⟨m1, hm1, hchar⟩ := fixedCompUpdate_ok_char r.modification_tag c hc r.targets m0
      rw [show fixedCompStep m0 r = fixedCompUpdate r.modification_tag m0 r.targets from rfl,
        hm1] at h
      simp only [bind, Except.bind] at h
      rw [ih m1 m h aa, hlast]
      cases lastRuleFor rs aa with
      | some x => rfl
      | none =>
        rw [hchar aa]
        by_cases ht : aa ∈ r.targets <;> simp [ht, hc]
    | none =>
      cases hts : r.targets with
      | nil =>
        rw [show fixedCompStep m0 r = fixedCompUpdate r.modification_tag m0 r.targets from rfl,
          hts, fixedCompUpdate_nil] at h
        simp only [bind, Except.bind] at h
        rw [ih m0 m h aa, hlast]
        cases lastRuleFor rs aa with
        | some x => rfl
        | none => simp [hts]
      | cons t ts =>
        rw [show fixedCompStep m0 r = fixedCompUpdate r.modification_tag m0 r.targets from rfl,
          hts, fixedCompUpdate_error r.modification_tag hc t ts m0] at h
        simp [bind, Except.bind] at h

theorem buildFixedComp_char (rules : List ModificationRule)
    (m : String → Option Composition) (h : buildFixedComp rules = .ok m) :
    ∀ aa, m aa =
      match lastRuleFor rules aa with
      | some r => r.modification_tag.composition
      | none => none :=
  buildFixedComp_char_aux rules (fun _ => none) m h

theorem buildFixedComp_error (rules : List ModificationRule) (e : PyExc)
    (h : buildFixedComp rules = .error e) :
    ∃ r, r ∈ rules ∧ r.modification_tag.composition = none ∧
      e = ⟨.keyError, r.modification_tag.value⟩ := by
  rw [buildFixedComp] at h
  revert h
  generalize hm0 : (fun _ => none : String → Option Composition) = m0
  clear hm0
  revert m0
  induction rules with
  | nil =>
    intro m0 h
    rw [List.foldlM_nil] at h
    cases h
  | cons r rs ih =>
    intro m0 h
    rw [List.foldlM_cons] at h
    cases hc : r.modification_tag.composition with
    | some c =>
      obtain ⟨m1, hm1, _⟩ := fixedCompUpdate_ok_char r.modification_tag c hc r.targets m0
      rw [show fixedCompStep m0 r = fixedCompUpdate r.modification_tag m0 r.targets from rfl,
        hm1] at h
      simp only [bind, Except.bind] at h
      obtain ⟨r', hr', hcr', her'⟩ := ih m1 h
      exact ⟨r', by simp [hr'], hcr', her'⟩
    | none =>
      cases hts : r.targets with
      | nil =>
        rw [show fixedCompStep m0 r = fixedCompUpdate r.modification_tag m0 r.targets from rfl,
          hts, fixedCompUpdate_nil] at h
        simp only [bind, Except.bind] at h
        obtain ⟨r', hr', hcr', her'⟩ := ih m0 h
        exact ⟨r', by simp [hr'], hcr', her'⟩
      | cons t ts =>
        rw [show fixedCompStep m0 r = fixedCompUpdate r.modification_tag m0 r.targets from rfl,
          hts, fixedCompUpdate_error r.modification_tag hc t ts m0] at h
        simp only [bind, Except.bind] at h
        cases h
        exact ⟨r, by simp, hc, rfl⟩

end CompLemmas

section MassLemmas

theorem foldlM_addTagMass_nil (init : ℚ) :
    List.foldlM addTagMass init [] = .ok init := by
  rw [List.foldlM_nil]; rfl

theorem foldlM_addTagMass_cons (t : Tag) (ts : List Tag) (init : ℚ) :
    List.foldlM addTagMass init (t :: ts) =
      match t.mass with
      | some x => List.foldlM addTagMass (init + x) ts
      | none => .error (modMassExc t.value) := by
  rw [List.foldlM_cons]
  cases ht : t.mass <;> simp [addTagMass, ht, bind, Except.bind]

theorem foldlM_addTagMass_ok_iff :
    ∀ (ts : List Tag) (init c : ℚ),
      ts.foldlM addTagMass init = .ok c ↔
        ∃ cs, mapOption Tag.mass ts = some cs ∧ c = init + cs.sum := by
  intro ts
  induction ts with
  | nil =>
    intro init c
    rw [foldlM_addTagMass_nil]
    constructor
    · intro h
      cases h
      exact ⟨[], rfl, by simp⟩
    · rintro ⟨cs, hcs, rfl⟩
      rw [mapOption] at hcs
      cases hcs
      simp
  | cons t ts ih =>
    intro init c
    rw [foldlM_addTagMass_cons]
    cases ht : t.mass with
    | none =>
      constructor
      · intro h; cases h
      · rintro ⟨cs, hcs, rfl⟩
        rw [mapOption, ht] at hcs
        cases hcs
    | some x =>
      constructor
      · intro h
        obtain ⟨cs, hcs, rfl⟩ := (ih (init + x) c).mp h
        exact ⟨x :: cs, by rw [mapOption, ht, hcs], by simp [add_assoc]⟩
      · rintro ⟨cs, hcs, rfl⟩
        rw [mapOption, ht] at hcs
        cases hrest : mapOption Tag.mass ts with
        | none => rw [hrest] at hcs; cases hcs
        | some cs' =>
          rw [hrest] at hcs
          cases hcs
          show List.foldlM addTagMass (init + x) ts = Except.ok (init + (x :: cs').sum)
          rw [(ih (init + x) _).mpr ⟨cs', hrest, rfl⟩]
          simp [add_assoc]

theorem foldlM_addTagMass_error :
    ∀ (ts : List Tag) (init : ℚ) (e : PyExc),
      ts.foldlM addTagMass init = .error e →
        ∃ t, t ∈ ts ∧ t.mass = none ∧ e = modMassExc t.value := by
  intro ts
  induction ts with
  | nil =>
    intro init e h
    rw [foldlM_addTagMass_nil] at h
    cases h
  | cons t ts ih =>
    intro init e h
    rw [foldlM_addTagMass_cons] at h
    cases ht : t.mass with
    | none =>
      rw [ht] at h
      cases h
      exact ⟨t, by simp, ht, rfl⟩
    | some x =>
      rw [ht] at h
      obtain ⟨t', ht', hc', he'⟩ := ih _ _ h
      exact ⟨t', by simp [ht'], hc', he'⟩

theorem positionMass_ok_iff (env : Env) (m : String → Option ℚ)
    (aa : String) (tags : List Tag) (c : ℚ) :
    positionMass env m aa tags = .ok c ↔
      positionMassSpec env m (aa, tags) = some c := by
  cases hb : env.std_aa_mass aa with
  | none =>
    simp only [positionMass, positionMassSpec, hb, bind, Except.bind]
    constructor
    · intro h; cases h
    · intro h; cases h
  | some b =>
    simp only [positionMass, positionMassSpec, hb, bind, Except.bind]
    rw [foldlM_addTagMass_ok_iff]
    have hw : (match m aa with
        | some q => b + q
        | none => b) = b + (m aa).getD 0 := by
      cases m aa <;> simp
    rw [hw]
    constructor
    · rintro ⟨cs, hcs, rfl⟩
      simp [hcs]
    · intro h
      cases hcs : mapOption Tag.mass tags with
      | none => rw [hcs] at h; cases h
      | some cs =>
        rw [hcs] at h
        cases h
        exact ⟨cs, rfl, rfl⟩

theorem positionMass_error_char (env : Env) (m : String → Option ℚ)
    (aa : String) (tags : List Tag) (e : PyExc) :
    positionMass env m aa tags = .error e →
      (env.std_aa_mass aa = none ∧ e = ambMassExc aa) ∨
        ∃ t, t ∈ tags ∧ t.mass = none ∧ e = modMassExc t.value := by
  intro h
  cases hb : env.std_aa_mass aa with
  | none =>
    simp only [positionMass, hb, bind, Except.bind] at h
    cases h
    exact Or.inl ⟨rfl, rfl⟩
  | some b =>
    simp only [positionMass, hb, bind, Except.bind] at h
    exact Or.inr (foldlM_addTagMass_error _ _ _ h)

theorem fixedMassUpdate_nil (tag : Tag) (m : String → Option ℚ) :
    fixedMassUpdate tag m [] = .ok m := by
  rw [fixedMassUpdate, List.foldlM_nil]; rfl

theorem fixedMassUpdate_cons (tag : Tag) (m : String → Option ℚ)
    (t : String) (ts : List String) :
    fixedMassUpdate tag m (t :: ts) =
      match tag.mass with
      | some q => fixedMassUpdate tag (fun x => if x = t then some q else m x) ts
      | none => .error ⟨.keyError, tag.value⟩ := by
  cases hc : tag.mass with
  | none =>
    rw [fixedMassUpdate, List.foldlM_cons]
    simp [Tag.rawMass, hc, bind, Except.bind]
  | some q =>
    simp only [fixedMassUpdate]
    rw [List.foldlM_cons]
    simp only [Tag.rawMass, hc, bind, Except.bind, pure, Except.pure]

theorem fixedMassUpdate_ok_char (tag : Tag) (q : ℚ)
    (hc : tag.mass = some q) :
    ∀ (ts : List String) (m : String → Option ℚ),
      ∃ m', fixedMassUpdate tag m ts = .ok m' ∧
        ∀ aa, m' aa = if aa ∈ ts then some q else m aa := by
  intro ts
  induction ts with
  | nil =>
    intro m
    exact ⟨m, fixedMassUpdate_nil tag m, by simp⟩
  | cons t ts ih =>
    intro m
    obtain ⟨m', hm', hchar⟩ := ih (fun x => if x = t then some q else m x)
    refine ⟨m', ?_, ?_⟩
    · rw [fixedMassUpdate_cons, hc]
      exact hm'
    · intro aa
      rw [hchar aa]
      by_cases h1 : aa ∈ ts
      · simp [h1]
      · by_cases h2 : aa = t <;> simp [h1, h2]

theorem fixedMassUpdate_error (tag : Tag) (hc : tag.mass = none)
    (t : String) (ts : List String) (m : String → Option ℚ) :
    fixedMassUpdate tag m (t :: ts) = .error ⟨.keyError, tag.value⟩ := by
  rw [fixedMassUpdate_cons, hc]

theorem buildFixedMass_char_aux :
    ∀ (rules : List ModificationRule) (m0 m : String → Option ℚ),
      rules.foldlM fixedMassStep m0 = .ok m →
        ∀ aa, m aa =
          match lastRuleFor rules aa with
          | some r => r.modification_tag.mass
          | none => m0 aa := by
  intro rules
  induction rules with
  | nil =>
    intro m0 m h aa
    rw [List.foldlM_nil] at h
    cases h
    simp [lastRuleFor]
  | cons r rs ih =>
    intro m0 m h aa
    rw [List.foldlM_cons] at h
    have hlast : lastRuleFor (r :: rs) aa =
        match lastRuleFor rs aa with
        | some x => some x
        | none => if aa ∈ r.targets then some r else none := by
      rw [lastRuleFor, List.foldl_cons]
      exact lastRuleFor_init aa rs _
    cases hc : r.modification_tag.mass with
    | some q =>
      obtain ⟨m1, hm1, hchar⟩ := fixedMassUpdate_ok_char r.modification_tag q hc r.targets m0
      rw [show fixedMassStep m0 r = fixedMassUpdate r.modification_tag m0 r.targets from rfl,
        hm1] at h
      simp only [bind, Except.bind] at h
      rw [ih m1 m h aa, hlast]
      cases lastRuleFor rs aa with
      | some x => rfl
      | none =>
        rw [hchar aa]
        by_cases ht : aa ∈ r.targets <;> simp [ht, hc]
    | none =>
      cases hts : r.targets with
      | nil =>
        rw [show fixedMassStep m0 r = fixedMassUpdate r.modification_tag m0 r.targets from rfl,
          hts, fixedMassUpdate_nil] at h
        simp only [bind, Except.bind] at h
        rw [ih m0 m h aa, hlast]
        cases lastRuleFor rs aa with
        | some x => rfl
        | none => simp [hts]
      | cons t ts =>
        rw [show fixedMassStep m0 r = fixedMassUpdate r.modification_tag m0 r.targets from rfl,
          hts, fixedMassUpdate_error r.modification_tag hc t ts m0] at h
        simp [bind, Except.bind] at h

theorem buildFixedMass_char (rules : List ModificationRule)
    (m : String → Option ℚ) (h : buildFixedMass rules = .ok m) :
    ∀ aa, m aa =
      match lastRuleFor rules aa with
      | some r => r.modification_tag.mass
      | none => none :=
  buildFixedMass_char_aux rules (fun _ => none) m h

theorem buildFixedMass_error (rules : List ModificationRule) (e : PyExc)
    (h : buildFixedMass rules = .error e) :
    ∃ r, r ∈ rules ∧ r.modification_tag.mass = none ∧
      e = ⟨.keyError, r.modification_tag.value⟩ := by
  rw [buildFixedMass] at h
  revert h
  generalize hm0 : (fun _ => none : String → Option ℚ) = m0
  clear hm0
  revert m0
  induction rules with
  | nil =>
    intro m0 h
    rw [List.foldlM_nil] at h
    cases h
  | cons r rs ih =>
    intro m0 h
    rw [List.foldlM_cons] at h
    cases hc : r.modification_tag.mass with
    | some q =>
      obtain ⟨m1, hm1, _⟩ := fixedMassUpdate_ok_char r.modification_tag q hc r.targets m0
      rw [show fixedMassStep m0 r = fixedMassUpdate r.modification_tag m0 r.targets from rfl,
        hm1] at h
      simp only [bind, Except.bind] at h
      obtain ⟨r', hr', hcr', her'⟩ := ih m1 h
      exact ⟨r', by simp [hr'], hcr', her'⟩
    | none =>
      cases hts : r.targets with
      | nil =>
        rw [show fixedMassStep m0 r = fixedMassUpdate r.modification_tag m0 r.targets from rfl,
          hts, fixedMassUpdate_nil] at h
        simp only [bind, Except.bind] at h
        obtain ⟨r', hr', hcr', her'⟩ := ih m0 h
        exact ⟨r', by simp [hr'], hcr', her'⟩
      | cons t ts =>
        rw [show fixedMassStep m0 r = fixedMassUpdate r.modification_tag m0 r.targets from rfl,
          hts, fixedMassUpdate_error r.modification_tag hc t ts m0] at h
        simp only [bind, Except.bind] at h
        cases h
        exact ⟨r, by simp, hc, rfl⟩

end MassLemmas

section StructureLemmas

theorem sequential_composition_ok (env : Env) (p : Peptidoform)
    (rules : List ModificationRule) (m : String → Option Composition)
    (ncs body ccs : List Composition)
    (hfix : p.properties.fixed_modifications = some rules)
    (hm : buildFixedComp rules = .ok m)
    (hn : mapOption Tag.composition p.properties.n_term = some ncs)
    (hb : mapOption (positionCompSpec env m) p.parsed_sequence = some body)
    (hc : mapOption Tag.composition p.properties.c_term = some ccs) :
    sequential_composition env p =
      .ok ((compH + ncs.sum) :: body ++ [compHO + ccs.sum]) := by
  have h1 : List.foldlM addTagComp compH p.properties.n_term =
      .ok (compH + ncs.sum) :=
    (foldlM_addTagComp_ok_iff p.properties.n_term compH _).mpr ⟨ncs, hn, rfl⟩
  have h2 : p.parsed_sequence.mapM (fun pos => positionComp env m pos.1 pos.2) =
      .ok body :=
    mapM_except_of_pointwise _ (positionCompSpec env m)
      (fun pos c hpc => (positionComp_ok_iff env m pos.1 pos.2 c).mpr hpc)
      p.parsed_sequence body hb
  have h3 : List.foldlM addTagComp compHO p.properties.c_term =
      .ok (compHO + ccs.sum) :=
    (foldlM_addTagComp_ok_iff p.properties.c_term compHO _).mpr ⟨ccs, hc, rfl⟩
  rw [sequential_composition, hfix]
  simp only [bind, Except.bind]
  simp only [hm, h1, h2, h3, pure, Except.pure]

theorem sequential_theoretical_mass_ok (env : Env) (p : Peptidoform)
    (rules : List ModificationRule) (m : String → Option ℚ)
    (ncs body ccs : List ℚ)
    (hfix : p.properties.fixed_modifications = some rules)
    (hm : buildFixedMass rules = .ok m)
    (hn : mapOption Tag.mass p.properties.n_term = some ncs)
    (hb : mapOption (positionMassSpec env m) p.parsed_sequence = some body)
    (hc : mapOption Tag.mass p.properties.c_term = some ccs) :
    sequential_theoretical_mass env p =
      .ok ((env.element_mass "H" + ncs.sum) :: body ++
        [(env.element_mass "H" + env.element_mass "O") + ccs.sum]) := by
  have h1 : List.foldlM addTagMass (env.element_mass "H") p.properties.n_term =
      .ok (env.element_mass "H" + ncs.sum) :=
    (foldlM_addTagMass_ok_iff p.properties.n_term (env.element_mass "H") _).mpr
      ⟨ncs, hn, rfl⟩
  have h2 : p.parsed_sequence.mapM (fun pos => positionMass env m pos.1 pos.2) =
      .ok body :=
    mapM_except_of_pointwise _ (positionMassSpec env m)
      (fun pos c hpc => (positionMass_ok_iff env m pos.1 pos.2 c).mpr hpc)
      p.parsed_sequence body hb
  have h3 : List.foldlM addTagMass (env.element_mass "H" + env.element_mass "O")
      p.properties.c_term =
      .ok ((env.element_mass "H" + env.element_mass "O") + ccs.sum) :=
    (foldlM_addTagMass_ok_iff p.properties.c_term
      (env.element_mass "H" + env.element_mass "O") _).mpr ⟨ccs, hc, rfl⟩
  rw [sequential_theoretical_mass, hfix]
  simp only [bind, Except.bind]
  simp only [hm, h1, h2, h3, pure, Except.pure]

theorem wholeComposition_ok (env : Env) (p : Peptidoform)
    (l lcs ucs : List Composition)
    (hseq : sequential_composition env p = .ok l)
    (hlab : mapOption Tag.composition p.properties.labile_modifications = some lcs)
    (hunl : mapOption Tag.composition p.properties.unlocalized_modifications = some ucs) :
    wholeComposition env p = .ok (l.sum + lcs.sum + ucs.sum) := by
  have h0 : l.foldl (fun a b => a + b) (fun _ => (0 : Int)) = l.sum := by
    rw [show (fun _ => (0 : Int)) = (0 : Composition) from rfl, foldl_add_eq_sum,
      zero_add]
  have h1 : List.foldlM addTagComp l.sum p.properties.labile_modifications =
      .ok (l.sum + lcs.sum) :=
    (foldlM_addTagComp_ok_iff p.properties.labile_modifications l.sum _).mpr
      ⟨lcs, hlab, rfl⟩
  have h2 : List.foldlM addTagComp (l.sum + lcs.sum)
      p.properties.unlocalized_modifications = .ok (l.sum + lcs.sum + ucs.sum) :=
    (foldlM_addTagComp_ok_iff p.properties.unlocalized_modifications
      (l.sum + lcs.sum) _).mpr ⟨ucs, hunl, rfl⟩
  rw [wholeComposition, hseq]
  simp only [bind, Except.bind]
  simp only [h0, h1, h2, pure, Except.pure]

theorem theoretical_mass_ok (env : Env) (p : Peptidoform)
    (l lms ums : List ℚ)
    (hseq : sequential_theoretical_mass env p = .ok l)
    (hlab : mapOption Tag.mass p.properties.labile_modifications = some lms)
    (hunl : mapOption Tag.mass p.properties.unlocalized_modifications = some ums) :
    theoretical_mass env p = .ok (l.sum + lms.sum + ums.sum) := by
  have h0 : l.foldl (fun a b => a + b) (0 : ℚ) = l.sum := by
    rw [foldl_add_eq_sum, zero_add]
  have h1 : List.foldlM addTagMass l.sum p.properties.labile_modifications =
      .ok (l.sum + lms.sum) :=
    (foldlM_addTagMass_ok_iff p.properties.labile_modifications l.sum _).mpr
      ⟨lms, hlab, rfl⟩
  have h2 : List.foldlM addTagMass (l.sum + lms.sum)
      p.properties.unlocalized_modifications = .ok (l.sum + lms.sum + ums.sum) :=
    (foldlM_addTagMass_ok_iff p.properties.unlocalized_modifications
      (l.sum + lms.sum) _).mpr ⟨ums, hunl, rfl⟩
  rw [theoretical_mass, hseq]
  simp only [bind, Except.bind]
  simp only [h0, h1, h2, pure, Except.pure]

end StructureLemmas

/-- A tag occurring in one of the locations traversed by the sequential
resolvers: `n_term`, some position's local list, or `c_term`. -/
def seqTagIn (p : Peptidoform) (t : Tag) : Prop :=
  t ∈ p.properties.n_term ∨
    (∃ pos, pos ∈ p.parsed_sequence ∧ t ∈ pos.2) ∨
    t ∈ p.properties.c_term

/-- A tag occurring in any location traversed by the whole-molecule resolvers:
the sequential locations plus `labile_modifications` and
`unlocalized_modifications`. -/
def allTagIn (p : Peptidoform) (t : Tag) : Prop :=
  seqTagIn p t ∨
    t ∈ p.properties.labile_modifications ∨
    t ∈ p.properties.unlocalized_modifications

section ErrorLemmas

theorem sequential_composition_error_char (env : Env) (p : Peptidoform)
    (rules : List ModificationRule) (e : PyExc)
    (hfix : p.properties.fixed_modifications = some rules)
    (hres : ∀ r, r ∈ rules → (r.modification_tag.composition).isSome)
    (h : sequential_composition env p = .error e) :
    (∃ t, seqTagIn p t ∧ t.composition = none ∧ e = modCompExc t.value) ∨
      (∃ pos, pos ∈ p.parsed_sequence ∧ env.std_aa_comp pos.1 = none ∧
        e = ambCompExc pos.1) := by
  rw [sequential_composition, hfix] at h
  simp only [bind, Except.bind] at h
  cases hbf : buildFixedComp rules with
  | error e1 =>
    obtain ⟨r, hr, hc, _⟩ := buildFixedComp_error rules e1 hbf
    have := hres r hr
    rw [hc] at this
    cases this
  | ok m =>
    cases hnt : List.foldlM addTagComp compH p.properties.n_term with
    | error e1 =>
      simp only [hbf, hnt, Except.error.injEq] at h
      obtain ⟨t, ht, hc, he⟩ := foldlM_addTagComp_error _ _ _ hnt
      exact Or.inl ⟨t, Or.inl ht, hc, h ▸ he⟩
    | ok v1 =>
      cases hbody : p.parsed_sequence.mapM
          (fun pos => positionComp env m pos.1 pos.2) with
      | error e1 =>
        simp only [hbf, hnt, hbody, Except.error.injEq] at h
        obtain ⟨pos, hpos, hperr⟩ := mapM_except_error_mem _ _ _ hbody
        rcases positionComp_error_char env m pos.1 pos.2 e1 hperr with
          ⟨hstd, he⟩ | ⟨t, htin, hc, he⟩
        · exact Or.inr ⟨pos, hpos, hstd, h ▸ he⟩
        · exact Or.inl ⟨t, Or.inr (Or.inl ⟨pos, hpos, htin⟩), hc, h ▸ he⟩
      | ok v2 =>
        cases hct : List.foldlM addTagComp compHO p.properties.c_term with
        | error e1 =>
          simp only [hbf, hnt, hbody, hct, Except.error.injEq] at h
          obtain ⟨t, ht, hc, he⟩ := foldlM_addTagComp_error _ _ _ hct
          exact Or.inl ⟨t, Or.inr (Or.inr ht), hc, h ▸ he⟩
        | ok v3 =>
          simp only [hbf, hnt, hbody, hct, pure, Except.pure] at h
          cases h

theorem wholeComposition_error_char (env : Env) (p : Peptidoform)
    (rules : List ModificationRule) (e : PyExc)
    (hfix : p.properties.fixed_modifications = some rules)
    (hres : ∀ r, r ∈ rules → (r.modification_tag.composition).isSome)
    (h : wholeComposition env p = .error e) :
    (∃ t, allTagIn p t ∧ t.composition = none ∧ e = modCompExc t.value) ∨
      (∃ pos, pos ∈ p.parsed_sequence ∧ env.std_aa_comp pos.1 = none ∧
        e = ambCompExc pos.1) := by
  rw [wholeComposition] at h
  simp only [bind, Except.bind] at h
  cases hseq : sequential_composition env p with
  | error e1 =>
    simp only [hseq, Except.error.injEq] at h
    rcases sequential_composition_error_char env p rules e1 hfix hres hseq with
      ⟨t, hin, hc, he⟩ | ⟨pos, hpos, hstd, he⟩
    · exact Or.inl ⟨t, Or.inl hin, hc, h ▸ he⟩
    · exact Or.inr ⟨pos, hpos, hstd, h ▸ he⟩
  | ok l =>
    cases hlab : List.foldlM addTagComp
        (l.foldl (fun a b => a + b) (fun _ => (0 : Int)))
        p.properties.labile_modifications with
    | error e1 =>
      simp only [hseq, hlab, Except.error.injEq] at h
      obtain ⟨t, ht, hc, he⟩ := foldlM_addTagComp_error _ _ _ hlab
      exact Or.inl ⟨t, Or.inr (Or.inl ht), hc, h ▸ he⟩
    | ok v1 =>
      cases hunl : List.foldlM addTagComp v1
          p.properties.unlocalized_modifications with
      | error e1 =>
        simp only [hseq, hlab, hunl, Except.error.injEq] at h
        obtain ⟨t, ht, hc, he⟩ := foldlM_addTagComp_error _ _ _ hunl
        exact Or.inl ⟨t, Or.inr (Or.inr ht), hc, h ▸ he⟩
      | ok v2 =>
        simp [hseq, hlab, hunl, pure, Except.pure] at h

theorem sequential_theoretical_mass_error_char (env : Env) (p : Peptidoform)
    (rules : List ModificationRule) (e : PyExc)
    (hfix : p.properties.fixed_modifications = some rules)
    (hres : ∀ r, r ∈ rules → (r.modification_tag.mass).isSome)
    (h : sequential_theoretical_mass env p = .error e) :
    (∃ t, seqTagIn p t ∧ t.mass = none ∧ e = modMassExc t.value) ∨
      (∃ pos, pos ∈ p.parsed_sequence ∧ env.std_aa_mass pos.1 = none ∧
        e = ambMassExc pos.1) := by
  rw [sequential_theoretical_mass, hfix] at h
  simp only [bind, Except.bind] at h
  cases hbf : buildFixedMass rules with
  | error e1 =>
    obtain ⟨r, hr, hc, _⟩ := buildFixedMass_error rules e1 hbf
    have := hres r hr
    rw [hc] at this
    cases this
  | ok m =>
    cases hnt : List.foldlM addTagMass (env.element_mass "H")
        p.properties.n_term with
    | error e1 =>
      simp only [hbf, hnt, Except.error.injEq] at h
      obtain ⟨t, ht, hc, he⟩ := foldlM_addTagMass_error _ _ _ hnt
      exact Or.inl ⟨t, Or.inl ht, hc, h ▸ he⟩
    | ok v1 =>
      cases hbody : p.parsed_sequence.mapM
          (fun pos => positionMass env m pos.1 pos.2) with
      | error e1 =>
        simp only [hbf, hnt, hbody, Except.error.injEq] at h
        obtain ⟨pos, hpos, hperr⟩ := mapM_except_error_mem _ _ _ hbody
        rcases positionMass_error_char env m pos.1 pos.2 e1 hperr with
          ⟨hstd, he⟩ | ⟨t, htin, hc, he⟩
        · exact Or.inr ⟨pos, hpos, hstd, h ▸ he⟩
        · exact Or.inl ⟨t, Or.inr (Or.inl ⟨pos, hpos, htin⟩), hc, h ▸ he⟩
      | ok v2 =>
        cases hct : List.foldlM addTagMass
            (env.element_mass "H" + env.element_mass "O")
            p.properties.c_term with
        | error e1 =>
          simp only [hbf, hnt, hbody, hct, Except.error.injEq] at h
          obtain ⟨t, ht, hc, he⟩ := foldlM_addTagMass_error _ _ _ hct
          exact Or.inl ⟨t, Or.inr (Or.inr ht), hc, h ▸ he⟩
        | ok v3 =>
          simp only [hbf, hnt, hbody, hct, pure, Except.pure] at h
          cases h

theorem theoretical_mass_error_char (env : Env) (p : Peptidoform)
    (rules : List ModificationRule) (e : PyExc)
    (hfix : p.properties.fixed_modifications = some rules)
    (hres : ∀ r, r ∈ rules → (r.modification_tag.mass).isSome)
    (h : theoretical_mass env p = .error e) :
    (∃ t, allTagIn p t ∧ t.mass = none ∧ e = modMassExc t.value) ∨
      (∃ pos, pos ∈ p.parsed_sequence ∧ env.std_aa_mass pos.1 = none ∧
        e = ambMassExc pos.1) := by
  rw [theoretical_mass] at h
  simp only [bind, Except.bind] at h
  cases hseq : sequential_theoretical_mass env p with
  | error e1 =>
    simp only [hseq, Except.error.injEq] at h
    rcases sequential_theoretical_mass_error_char env p rules e1 hfix hres hseq with
      ⟨t, hin, hc, he⟩ | ⟨pos, hpos, hstd, he⟩
    · exact Or.inl ⟨t, Or.inl hin, hc, h ▸ he⟩
    · exact Or.inr ⟨pos, hpos, hstd, h ▸ he⟩
  | ok l =>
    cases hlab : List.foldlM addTagMass (l.foldl (fun a b => a + b) (0 : ℚ))
        p.properties.labile_modifications with
    | error e1 =>
      simp only [hseq, hlab, Except.error.injEq] at h
      obtain ⟨t, ht, hc, he⟩ := foldlM_addTagMass_error _ _ _ hlab
      exact Or.inl ⟨t, Or.inr (Or.inl ht), hc, h ▸ he⟩
    | ok v1 =>
      cases hunl : List.foldlM addTagMass v1
          p.properties.unlocalized_modifications with
      | error e1 =>
        simp only [hseq, hlab, hunl, Except.error.injEq] at h
        obtain ⟨t, ht, hc, he⟩ := foldlM_addTagMass_error _ _ _ hunl
        exact Or.inl ⟨t, Or.inr (Or.inr ht), hc, h ▸ he⟩
      | ok v2 =>
        simp [hseq, hlab, hunl, pure, Except.pure] at h

end ErrorLemmas

section Examples

/-- Composition with `n` atoms of element `e0` and nothing else. -/
def unitComp (e0 : String) (n : Int) : Composition :=
  fun e => if e = e0 then n else 0

/-- Toy alanine residue composition. -/
def stdAComp : Composition :=
  fun e => if e = "C" then 3 else if e = "H" then 5 else
    if e = "N" then 1 else if e = "O" then 1 else 0

/-- Toy cysteine residue composition. -/
def stdCComp : Composition :=
  fun e => if e = "C" then 3 else if e = "H" then 5 else
    if e = "N" then 1 else if e = "O" then 1 else if e = "S" then 1 else 0

/-- A resolvable oxidation-like tag. -/
def tagOx : Tag := ⟨"Oxidation", some (unitComp "O" 1), some 16⟩

/-- A resolvable acetyl-like tag. -/
def tagAc : Tag := ⟨"Acetyl", some (unitComp "C" 2), some 42⟩

/-- A resolvable carbamidomethyl-like tag. -/
def tagCam : Tag := ⟨"Carbamidomethyl", some (unitComp "N" 1), some 57⟩

/-- An unresolvable tag: accessing its composition or mass fails. -/
def tagBad : Tag := ⟨"Unknown", none, none⟩

/-- A fixed-modification rule targeting cysteine with the carbamidomethyl tag. -/
def camRule : ModificationRule := ⟨tagCam, ["C"]⟩

/-- A second fixed-modification rule targeting cysteine, with the oxidation tag. -/
def oxRuleC : ModificationRule := ⟨tagOx, ["C"]⟩

/-- A fixed-modification rule whose tag does not resolve. -/
def badRule : ModificationRule := ⟨tagBad, ["A"]⟩

/-- Toy environment with small integral masses ("A" 71, "C" 103, H 1, O 16). -/
def exEnv : Env where
  std_aa_comp := fun aa =>
    if aa = "A" then some stdAComp else if aa = "C" then some stdCComp else none
  std_aa_mass := fun aa =>
    if aa = "A" then some 71 else if aa = "C" then some 103 else none
  element_mass := fun e => if e = "H" then 1 else if e = "O" then 16 else 0
  nist_mass_H1 := 1
  process_tag_tokens := fun s => ⟨s, some (unitComp "C" 1), some 1⟩
  to_proforma := fun seq _ => String.join (seq.map (fun pos => pos.1))
  pyhash := fun s => (s.length : Int)

/-- Base properties: nothing set, fixed-modification list present and empty. -/
def exProps : Properties :=
  ⟨[], [], [], [], some [], none, []⟩

end Examples

/-- C1: for every peptidoform whose modification tags all resolve, the
whole-molecule aggregates equal the sums of the per-position results plus the
labile and unlocalized contributions: `composition` is the element-wise sum of
`sequential_composition` plus each labile and unlocalized tag's composition
(each once, order-insignificant because composition addition is commutative),
and `theoretical_mass` is the sum of `sequential_theoretical_mass` plus each
labile and unlocalized tag's mass. -/
theorem claim_C1 (env : Env) (p : Peptidoform)
    (l lcs ucs : List Composition) (ml lms ums : List ℚ)
    (hseq : sequential_composition env p = .ok l)
    (hseqm : sequential_theoretical_mass env p = .ok ml)
    (hlab : mapOption Tag.composition p.properties.labile_modifications = some lcs)
    (hunl : mapOption Tag.composition p.properties.unlocalized_modifications = some ucs)
    (hlabm : mapOption Tag.mass p.properties.labile_modifications = some lms)
    (hunlm : mapOption Tag.mass p.properties.unlocalized_modifications = some ums) :
    wholeComposition env p = .ok (l.sum + lcs.sum + ucs.sum) ∧
    theoretical_mass env p = .ok (ml.sum + lms.sum + ums.sum) :=
  ⟨wholeComposition_ok env p l lcs ucs hseq hlab hunl,
   theoretical_mass_ok env p ml lms ums hseqm hlabm hunlm⟩

/-- Peptidoform `A` with one labile and one unlocalized modification. -/
def exPep1 : Peptidoform :=
  ⟨[("A", [])],
    { exProps with labile_modifications := [tagOx],
                   unlocalized_modifications := [tagCam] }⟩

/-- Witness for C1 at a concrete peptidoform. -/
theorem claim_C1_witness :
    wholeComposition exEnv exPep1 =
      .ok (([compH, stdAComp, compHO] : List Composition).sum +
        ([unitComp "O" 1] : List Composition).sum +
        ([unitComp "N" 1] : List Composition).sum) ∧
    theoretical_mass exEnv exPep1 =
      .ok (([1, 71, 1 + 16] : List ℚ).sum + ([16] : List ℚ).sum +
        ([57] : List ℚ).sum) :=
  claim_C1 exEnv exPep1 [compH, stdAComp, compHO] [unitComp "O" 1] [unitComp "N" 1]
    [1, 71, 1 + 16] [16] [57] (by rfl) (by rfl) (by rfl) (by rfl) (by rfl) (by rfl)

/-- C2: for every peptidoform whose residues and tags resolve,
`sequential_composition` returns an ordered list of exactly `n + 2` entries:
first the N-terminus entry `{H: 1}` plus the `n_term` tags' compositions, then
one entry per residue in N-to-C order, then the C-terminus entry `{H: 1, O: 1}`
plus the `c_term` tags' compositions. -/
theorem claim_C2 (env : Env) (p : Peptidoform)
    (rules : List ModificationRule) (m : String → Option Composition)
    (ncs body ccs : List Composition)
    (hfix : p.properties.fixed_modifications = some rules)
    (hm : buildFixedComp rules = .ok m)
    (hn : mapOption Tag.composition p.properties.n_term = some ncs)
    (hb : mapOption (positionCompSpec env m) p.parsed_sequence = some body)
    (hc : mapOption Tag.composition p.properties.c_term = some ccs) :
    sequential_composition env p =
      .ok ((compH + ncs.sum) :: body ++ [compHO + ccs.sum]) ∧
    ((compH + ncs.sum) :: body ++ [compHO + ccs.sum]).length =
      p.parsed_sequence.length + 2 := by
  refine ⟨sequential_composition_ok env p rules m ncs body ccs hfix hm hn hb hc, ?_⟩
  have hlen := mapOption_length (positionCompSpec env m) p.parsed_sequence body hb
  simp [hlen]

/-- Peptidoform with N-terminal, positional and C-terminal modifications. -/
def exPep2 : Peptidoform :=
  ⟨[("A", [tagOx])], { exProps with n_term := [tagAc], c_term := [tagOx] }⟩

/-- Witness for C2 at a concrete peptidoform. -/
theorem claim_C2_witness :
    sequential_composition exEnv exPep2 =
      .ok ((compH + ([unitComp "C" 2] : List Composition).sum) ::
        [stdAComp + 0 + ([unitComp "O" 1] : List Composition).sum] ++
        [compHO + ([unitComp "O" 1] : List Composition).sum]) ∧
    ((compH + ([unitComp "C" 2] : List Composition).sum) ::
        [stdAComp + 0 + ([unitComp "O" 1] : List Composition).sum] ++
        [compHO + ([unitComp "O" 1] : List Composition).sum]).length =
      exPep2.parsed_sequence.length + 2 :=
  claim_C2 exEnv exPep2 [] (fun _ => none) [unitComp "C" 2]
    [stdAComp + 0 + ([unitComp "O" 1] : List Composition).sum] [unitComp "O" 1]
    (by rfl) (by rfl) (by rfl) (by rfl) (by rfl)

/-- Cysteine carrying a local oxidation tag, with a fixed carbamidomethyl rule
targeting cysteine. -/
def exPep3 : Peptidoform :=
  ⟨[("C", [tagOx])], { exProps with fixed_modifications := some [camRule] }⟩

/-- C3 counterexample: at a position that already carries a local modification
tag, the fixed-rule contribution (57) is still added — the position mass is
`103 + 57 + 16`, not the `103 + 16` the claim predicts. -/
theorem claim_C3_counterexample :
    sequential_theoretical_mass exEnv exPep3 = .ok [1, 103 + 57 + 16, 1 + 16] ∧
      (103 + 57 + 16 : ℚ) ≠ 103 + 16 := by
  constructor
  · rfl
  · norm_num

/-- C3 amended: the fixed-rule contribution is applied at every position whose
residue is targeted, regardless of whether the position already carries local
modification tags; fixed and local contributions are both added (stated for a
single-residue peptidoform with a nonempty local tag list). -/
theorem claim_C3_amended (env : Env) (rules : List ModificationRule)
    (m : String → Option Composition) (mq : String → Option ℚ)
    (aa : String) (tags : List Tag) (props : Properties)
    (b fc : Composition) (bq fq : ℚ) (cs : List Composition) (qs : List ℚ)
    (hpf : props.fixed_modifications = some rules)
    (hpn : props.n_term = []) (hpc : props.c_term = [])
    (hm : buildFixedComp rules = .ok m) (hmq : buildFixedMass rules = .ok mq)
    (hfc : m aa = some fc) (hfq : mq aa = some fq)
    (hb : env.std_aa_comp aa = some b) (hbq : env.std_aa_mass aa = some bq)
    (hcs : mapOption Tag.composition tags = some cs)
    (hqs : mapOption Tag.mass tags = some qs)
    (hne : tags ≠ []) :
    sequential_composition env ⟨[(aa, tags)], props⟩ =
      .ok [compH, b + fc + cs.sum, compHO] ∧
    sequential_theoretical_mass env ⟨[(aa, tags)], props⟩ =
      .ok [env.element_mass "H", bq + fq + qs.sum,
        env.element_mass "H" + env.element_mass "O"] := by
  have hn' : mapOption Tag.composition
      (Peptidoform.mk [(aa, tags)] props).properties.n_term = some [] := by
    simp only [hpn]; rfl
  have hc' : mapOption Tag.composition
      (Peptidoform.mk [(aa, tags)] props).properties.c_term = some [] := by
    simp only [hpc]; rfl
  have hn2 : mapOption Tag.mass
      (Peptidoform.mk [(aa, tags)] props).properties.n_term = some [] := by
    simp only [hpn]; rfl
  have hc2 : mapOption Tag.mass
      (Peptidoform.mk [(aa, tags)] props).properties.c_term = some [] := by
    simp only [hpc]; rfl
  have hb' : mapOption (positionCompSpec env m)
      (Peptidoform.mk [(aa, tags)] props).parsed_sequence =
      some [b + fc + cs.sum] := by
    simp [mapOption, positionCompSpec, hb, hcs, hfc]
  have hb2 : mapOption (positionMassSpec env mq)
      (Peptidoform.mk [(aa, tags)] props).parsed_sequence =
      some [bq + fq + qs.sum] := by
    simp [mapOption, positionMassSpec, hbq, hqs, hfq]
  constructor
  · have h := sequential_composition_ok env ⟨[(aa, tags)], props⟩ rules m
      [] [b + fc + cs.sum] [] hpf hm hn' hb' hc'
    simpa using h
  · have h := sequential_theoretical_mass_ok env ⟨[(aa, tags)], props⟩ rules mq
      [] [bq + fq + qs.sum] [] hpf hmq hn2 hb2 hc2
    simpa using h

/-- Witness for the amended C3 at a concrete peptidoform. -/
theorem claim_C3_amended_witness :
    sequential_composition exEnv exPep3 =
      .ok [compH, stdCComp + unitComp "N" 1 + ([unitComp "O" 1] : List Composition).sum,
        compHO] ∧
    sequential_theoretical_mass exEnv exPep3 =
      .ok [exEnv.element_mass "H", 103 + 57 + ([16] : List ℚ).sum,
        exEnv.element_mass "H" + exEnv.element_mass "O"] :=
  claim_C3_amended exEnv [camRule]
    (fun x => if x = "C" then some (unitComp "N" 1) else none)
    (fun x => if x = "C" then some 57 else none)
    "C" [tagOx] { exProps with fixed_modifications := some [camRule] }
    stdCComp (unitComp "N" 1) 103 57 [unitComp "O" 1] [16]
    (by rfl) (by rfl) (by rfl) (by rfl) (by rfl) (by rfl) (by rfl)
    (by rfl) (by rfl) (by rfl) (by rfl) (by simp)

/-- C4: in `sequential_composition` and `sequential_theoretical_mass` the
per-residue fixed-rule lookup is built by iterating `fixed_modifications` in
order, recording each rule's resolved composition (respectively mass) under
every one of its target residues with last-write-wins on duplicates (the lookup
equals the last matching rule's value), and each position adds at most one
fixed-rule contribution: a resolvable position evaluates to the standard
residue value plus the single `(m aa)` lookup plus its local tags. -/
theorem claim_C4 (rules : List ModificationRule)
    (m : String → Option Composition) (mq : String → Option ℚ)
    (hm : buildFixedComp rules = .ok m)
    (hmq : buildFixedMass rules = .ok mq) :
    (∀ aa, m aa =
      match lastRuleFor rules aa with
      | some r => r.modification_tag.composition
      | none => none) ∧
    (∀ aa, mq aa =
      match lastRuleFor rules aa with
      | some r => r.modification_tag.mass
      | none => none) ∧
    (∀ r1 r2 : ModificationRule, ∀ aa,
      aa ∈ r1.targets → aa ∈ r2.targets → lastRuleFor [r1, r2] aa = some r2) ∧
    (∀ (env : Env) (aa : String) (tags : List Tag) (b : Composition)
        (cs : List Composition),
      env.std_aa_comp aa = some b → mapOption Tag.composition tags = some cs →
      positionComp env m aa tags = .ok (b + (m aa).getD 0 + cs.sum)) ∧
    (∀ (env : Env) (aa : String) (tags : List Tag) (bq : ℚ) (qs : List ℚ),
      env.std_aa_mass aa = some bq → mapOption Tag.mass tags = some qs →
      positionMass env mq aa tags = .ok (bq + (mq aa).getD 0 + qs.sum)) := by
  refine ⟨buildFixedComp_char rules m hm, buildFixedMass_char rules mq hmq,
    ?_, ?_, ?_⟩
  · intro r1 r2 aa h1 h2
    simp [lastRuleFor, h1, h2]
  · intro env aa tags b cs hb hcs
    exact (positionComp_ok_iff env m aa tags _).mpr
      (by simp [positionCompSpec, hb, hcs])
  · intro env aa tags bq qs hbq hqs
    exact (positionMass_ok_iff env mq aa tags _).mpr
      (by simp [positionMassSpec, hbq, hqs])

/-- The composition lookup built from `[camRule, oxRuleC]`. -/
def m4ex : String → Option Composition :=
  fun x => if x = "C" then some (unitComp "O" 1)
    else if x = "C" then some (unitComp "N" 1) else none

/-- The mass lookup built from `[camRule, oxRuleC]`. -/
def mq4ex : String → Option ℚ :=
  fun x => if x = "C" then some 16 else if x = "C" then some 57 else none

/-- Witness for C4: with two rules both targeting `C`, the built lookup holds
the later rule's value, and a position adds exactly that one lookup. -/
theorem claim_C4_witness :
    m4ex "C" =
      (match lastRuleFor [camRule, oxRuleC] "C" with
      | some r => r.modification_tag.composition
      | none => none) ∧
    lastRuleFor [camRule, oxRuleC] "C" = some oxRuleC ∧
    positionComp exEnv m4ex "C" [] =
      .ok (stdCComp + (m4ex "C").getD 0 + ([] : List Composition).sum) ∧
    positionMass exEnv mq4ex "C" [] =
      .ok (103 + (mq4ex "C").getD 0 + ([] : List ℚ).sum) := by
  have h := claim_C4 [camRule, oxRuleC] m4ex mq4ex (by rfl) (by rfl)
  exact ⟨h.1 "C",
    h.2.2.1 camRule oxRuleC "C" (by simp [camRule]) (by simp [oxRuleC]),
    h.2.2.2.1 exEnv "C" [] stdCComp [] (by rfl) (by rfl),
    h.2.2.2.2 exEnv "C" [] 103 [] (by rfl) (by rfl)⟩

/-- A rename mapping for the carbamidomethyl label. -/
def exMapping : List (String × String) := [("Carbamidomethyl", "cmm")]

/-- Peptidoform `AC` with one pending fixed carbamidomethyl rule. -/
def exPep5 : Peptidoform :=
  ⟨[("A", []), ("C", [])], { exProps with fixed_modifications := some [camRule] }⟩

/-- C5: evaluation of `rename_modifications` at the failing input — with a
nonempty `fixed_modifications` list the helper is applied to `ModificationRule`
objects, which have no `value` attribute, so the call raises a builtin
`AttributeError` instead of renaming (or leaving) the rule's tag. -/
theorem claim_C5_bug :
    rename_modifications exEnv exMapping exPep5 =
      .error ⟨.attributeError, "ModificationRule object has no attribute value"⟩ :=
  rfl

theorem ruleDictInner_char (tag : Tag) :
    ∀ (ts : List String) (d0 : String → List Tag) (aa : String),
      (ts.foldl (fun d t => fun x => if x = t then d t ++ [tag] else d x) d0) aa =
        d0 aa ++ (ts.filter (fun x => x == aa)).map (fun _ => tag) := by
  intro ts
  induction ts with
  | nil => intro d0 aa; simp
  | cons t ts ih =>
    intro d0 aa
    rw [List.foldl_cons, ih]
    by_cases h : t = aa
    · subst h
      simp [List.filter_cons]
    · have hbeq : (t == aa) = false := by simp [h]
      simp [List.filter_cons, hbeq, h, Ne.symm h]

theorem buildRuleDict_char_aux :
    ∀ (rules : List ModificationRule) (d0 : String → List Tag) (aa : String),
      (rules.foldl
        (fun d rule =>
          rule.targets.foldl
            (fun d aa => fun x =>
              if x = aa then d aa ++ [rule.modification_tag] else d x)
            d)
        d0) aa =
      d0 aa ++ rules.flatMap
        (fun r => (r.targets.filter (fun x => x == aa)).map
          (fun _ => r.modification_tag)) := by
  intro rules
  induction rules with
  | nil => intro d0 aa; simp
  | cons r rs ih =>
    intro d0 aa
    rw [List.foldl_cons, ih, List.flatMap_cons, ← List.append_assoc]
    rw [ruleDictInner_char r.modification_tag r.targets d0 aa]

theorem buildRuleDict_char (rules : List ModificationRule) (aa : String) :
    buildRuleDict rules aa =
      rules.flatMap
        (fun r => (r.targets.filter (fun x => x == aa)).map
          (fun _ => r.modification_tag)) := by
  rw [buildRuleDict, buildRuleDict_char_aux]
  simp

/-- C6: `apply_fixed_modifications` builds a target-to-tag-list map by
iterating the rules in order, appending (never overwriting) each rule's tag
under every target (the accumulated list is exactly the in-order concatenation
over all matching rules); it appends the accumulated list to every matching
position's local list (installing it when the position had none — uniformly,
every position becomes its old list `++` the accumulated list for its residue);
afterwards `fixed_modifications` is absent, and applying again when
`fixed_modifications` is empty or absent changes nothing. -/
theorem claim_C6 (p : Peptidoform) (rules : List ModificationRule)
    (hfix : p.properties.fixed_modifications = some rules)
    (hne : rules ≠ []) :
    (apply_fixed_modifications p).properties.fixed_modifications = none ∧
    (apply_fixed_modifications p).parsed_sequence =
      p.parsed_sequence.map
        (fun pos => (pos.1, pos.2 ++ buildRuleDict rules pos.1)) ∧
    (∀ aa, buildRuleDict rules aa =
      rules.flatMap
        (fun r => (r.targets.filter (fun x => x == aa)).map
          (fun _ => r.modification_tag))) ∧
    (∀ q : Peptidoform,
      q.properties.fixed_modifications = none ∨
        q.properties.fixed_modifications = some [] →
      apply_fixed_modifications q = q) ∧
    apply_fixed_modifications (apply_fixed_modifications p) =
      apply_fixed_modifications p := by
  have hnoop : ∀ q : Peptidoform,
      q.properties.fixed_modifications = none ∨
        q.properties.fixed_modifications = some [] →
      apply_fixed_modifications q = q := by
    intro q hq
    rcases hq with hq | hq <;>
      · rw [apply_fixed_modifications, hq]
  cases rules with
  | nil => exact absurd rfl hne
  | cons r rs =>
    have hclear : (apply_fixed_modifications p).properties.fixed_modifications =
        none := by
      rw [apply_fixed_modifications, hfix]
    refine ⟨hclear, ?_, fun aa => buildRuleDict_char (r :: rs) aa, hnoop,
      hnoop _ (Or.inl hclear)⟩
    rw [apply_fixed_modifications, hfix]
    refine List.map_congr_left ?_
    intro pos _
    by_cases hd : (buildRuleDict (r :: rs) pos.1).isEmpty
    · rw [List.isEmpty_iff] at hd
      simp [hd]
    · by_cases hm : pos.2.isEmpty
      · rw [List.isEmpty_iff] at hm
        simp [hm, hd]
      · simp [hd, hm]

/-- Peptidoform for the C6 witness: one modified and one unmodified target. -/
def exPep6 : Peptidoform :=
  ⟨[("C", [tagOx]), ("A", []), ("C", [])],
    { exProps with fixed_modifications := some [camRule] }⟩

/-- Witness for C6 at a concrete peptidoform. -/
theorem claim_C6_witness :
    (apply_fixed_modifications exPep6).properties.fixed_modifications = none ∧
    (apply_fixed_modifications exPep6).parsed_sequence =
      exPep6.parsed_sequence.map
        (fun pos => (pos.1, pos.2 ++ buildRuleDict [camRule] pos.1)) ∧
    apply_fixed_modifications (apply_fixed_modifications exPep6) =
      apply_fixed_modifications exPep6 := by
  have h := claim_C6 exPep6 [camRule] (by rfl) (by simp)
  exact ⟨h.1, h.2.1, h.2.2.2.2⟩

theorem positionCompSpec_some_inv (env : Env) (m : String → Option Composition)
    (pos : String × List Tag) (c : Composition)
    (h : positionCompSpec env m pos = some c) :
    (env.std_aa_comp pos.1).isSome ∧
      ∃ cs, mapOption Tag.composition pos.2 = some cs := by
  rw [positionCompSpec] at h
  cases ha : env.std_aa_comp pos.1 with
  | none => rw [ha] at h; cases h
  | some b =>
    cases hcs : mapOption Tag.composition pos.2 with
    | none => rw [ha, hcs] at h; cases h
    | some cs => exact ⟨by simp [ha], cs, rfl⟩

theorem positionMassSpec_some_inv (env : Env) (m : String → Option ℚ)
    (pos : String × List Tag) (c : ℚ)
    (h : positionMassSpec env m pos = some c) :
    (env.std_aa_mass pos.1).isSome ∧
      ∃ qs, mapOption Tag.mass pos.2 = some qs := by
  rw [positionMassSpec] at h
  cases ha : env.std_aa_mass pos.1 with
  | none => rw [ha] at h; cases h
  | some b =>
    cases hqs : mapOption Tag.mass pos.2 with
    | none => rw [ha, hqs] at h; cases h
    | some qs => exact ⟨by simp [ha], qs, rfl⟩

theorem sequential_composition_ok_resolves (env : Env) (p : Peptidoform)
    (l : List Composition) (h : sequential_composition env p = .ok l) :
    (∀ t, seqTagIn p t → (t.composition).isSome) ∧
      (∀ pos, pos ∈ p.parsed_sequence → (env.std_aa_comp pos.1).isSome) := by
  rw [sequential_composition] at h
  simp only [bind, Except.bind] at h
  cases hfx : p.properties.fixed_modifications with
  | none => simp only [hfx] at h; cases h
  | some rules =>
    cases hbf : buildFixedComp rules with
    | error e1 => simp only [hfx, hbf] at h; cases h
    | ok m =>
      cases hnt : List.foldlM addTagComp compH p.properties.n_term with
      | error e1 => simp only [hfx, hbf, hnt] at h; cases h
      | ok v1 =>
        cases hbody : p.parsed_sequence.mapM
            (fun pos => positionComp env m pos.1 pos.2) with
        | error e1 => simp only [hfx, hbf, hnt, hbody] at h; cases h
        | ok v2 =>
          cases hct : List.foldlM addTagComp compHO p.properties.c_term with
          | error e1 => simp only [hfx, hbf, hnt, hbody, hct] at h; cases h
          | ok v3 =>
            have hposspec : ∀ pos, pos ∈ p.parsed_sequence →
                ∃ c, positionCompSpec env m pos = some c := by
              intro pos hpos
              obtain ⟨c, hc⟩ := mapM_except_ok_mem _ _ _ hbody pos hpos
              exact ⟨c, (positionComp_ok_iff env m pos.1 pos.2 c).mp hc⟩
            constructor
            · intro t hin
              rcases hin with hin | ⟨pos, hpos, htin⟩ | hin
              · obtain ⟨cs, hcs, _⟩ := (foldlM_addTagComp_ok_iff _ _ _).mp hnt
                exact mapOption_mem_isSome _ _ _ hcs t hin
              · obtain ⟨c, hspec⟩ := hposspec pos hpos
                obtain ⟨_, cs, hcs⟩ := positionCompSpec_some_inv env m pos c hspec
                exact mapOption_mem_isSome _ _ _ hcs t htin
              · obtain ⟨cs, hcs, _⟩ := (foldlM_addTagComp_ok_iff _ _ _).mp hct
                exact mapOption_mem_isSome _ _ _ hcs t hin
            · intro pos hpos
              obtain ⟨c, hspec⟩ := hposspec pos hpos
              exact (positionCompSpec_some_inv env m pos c hspec).1

theorem sequential_theoretical_mass_ok_resolves (env : Env) (p : Peptidoform)
    (l : List ℚ) (h : sequential_theoretical_mass env p = .ok l) :
    (∀ t, seqTagIn p t → (t.mass).isSome) ∧
      (∀ pos, pos ∈ p.parsed_sequence → (env.std_aa_mass pos.1).isSome) := by
  rw [sequential_theoretical_mass] at h
  simp only [bind, Except.bind] at h
  cases hfx : p.properties.fixed_modifications with
  | none => simp only [hfx] at h; cases h
  | some rules =>
    cases hbf : buildFixedMass rules with
    | error e1 => simp only [hfx, hbf] at h; cases h
    | ok m =>
      cases hnt : List.foldlM addTagMass (env.element_mass "H")
          p.properties.n_term with
      | error e1 => simp only [hfx, hbf, hnt] at h; cases h
      | ok v1 =>
        cases hbody : p.parsed_sequence.mapM
            (fun pos => positionMass env m pos.1 pos.2) with
        | error e1 => simp only [hfx, hbf, hnt, hbody] at h; cases h
        | ok v2 =>
          cases hct : List.foldlM addTagMass
              (env.element_mass "H" + env.element_mass "O")
              p.properties.c_term with
          | error e1 => simp only [hfx, hbf, hnt, hbody, hct] at h; cases h
          | ok v3 =>
            have hposspec : ∀ pos, pos ∈ p.parsed_sequence →
                ∃ c, positionMassSpec env m pos = some c := by
              intro pos hpos
              obtain ⟨c, hc⟩ := mapM_except_ok_mem _ _ _ hbody pos hpos
              exact ⟨c, (positionMass_ok_iff env m pos.1 pos.2 c).mp hc⟩
            constructor
            · intro t hin
              rcases hin with hin | ⟨pos, hpos, htin⟩ | hin
              · obtain ⟨qs, hqs, _⟩ := (foldlM_addTagMass_ok_iff _ _ _).mp hnt
                exact mapOption_mem_isSome _ _ _ hqs t hin
              · obtain ⟨c, hspec⟩ := hposspec pos hpos
                obtain ⟨_, qs, hqs⟩ := positionMassSpec_some_inv env m pos c hspec
                exact mapOption_mem_isSome _ _ _ hqs t htin
              · obtain ⟨qs, hqs, _⟩ := (foldlM_addTagMass_ok_iff _ _ _).mp hct
                exact mapOption_mem_isSome _ _ _ hqs t hin
            · intro pos hpos
              obtain ⟨c, hspec⟩ := hposspec pos hpos
              exact (positionMassSpec_some_inv env m pos c hspec).1

theorem wholeComposition_ok_resolves (env : Env) (p : Peptidoform)
    (c : Composition) (h : wholeComposition env p = .ok c) :
    (∀ t, allTagIn p t → (t.composition).isSome) ∧
      (∀ pos, pos ∈ p.parsed_sequence → (env.std_aa_comp pos.1).isSome) := by
  rw [wholeComposition] at h
  simp only [bind, Except.bind] at h
  cases hseq : sequential_composition env p with
  | error e1 => simp only [hseq] at h; cases h
  | ok l =>
    cases hlab : List.foldlM addTagComp
        (l.foldl (fun a b => a + b) (fun _ => (0 : Int)))
        p.properties.labile_modifications with
    | error e1 => simp only [hseq, hlab] at h; cases h
    | ok v1 =>
      cases hunl : List.foldlM addTagComp v1
          p.properties.unlocalized_modifications with
      | error e1 => simp only [hseq, hlab, hunl] at h; cases h
      | ok v2 =>
        have hseqres := sequential_composition_ok_resolves env p l hseq
        obtain ⟨lcs, hlcs, _⟩ := (foldlM_addTagComp_ok_iff _ _ _).mp hlab
        obtain ⟨ucs, hucs, _⟩ := (foldlM_addTagComp_ok_iff _ _ _).mp hunl
        refine ⟨?_, hseqres.2⟩
        intro t hin
        rcases hin with hin | hin | hin
        · exact hseqres.1 t hin
        · exact mapOption_mem_isSome _ _ _ hlcs t hin
        · exact mapOption_mem_isSome _ _ _ hucs t hin

theorem theoretical_mass_ok_resolves (env : Env) (p : Peptidoform)
    (q : ℚ) (h : theoretical_mass env p = .ok q) :
    (∀ t, allTagIn p t → (t.mass).isSome) ∧
      (∀ pos, pos ∈ p.parsed_sequence → (env.std_aa_mass pos.1).isSome) := by
  rw [theoretical_mass] at h
  simp only [bind, Except.bind] at h
  cases hseq : sequential_theoretical_mass env p with
  | error e1 => simp only [hseq] at h; cases h
  | ok l =>
    cases hlab : List.foldlM addTagMass (l.foldl (fun a b => a + b) (0 : ℚ))
        p.properties.labile_modifications with
    | error e1 => simp only [hseq, hlab] at h; cases h
    | ok v1 =>
      cases hunl : List.foldlM addTagMass v1
          p.properties.unlocalized_modifications with
      | error e1 => simp only [hseq, hlab, hunl] at h; cases h
      | ok v2 =>
        have hseqres := sequential_theoretical_mass_ok_resolves env p l hseq
        obtain ⟨lms, hlms, _⟩ := (foldlM_addTagMass_ok_iff _ _ _).mp hlab
        obtain ⟨ums, hums, _⟩ := (foldlM_addTagMass_ok_iff _ _ _).mp hunl
        refine ⟨?_, hseqres.2⟩
        intro t hin
        rcases hin with hin | hin | hin
        · exact hseqres.1 t hin
        · exact mapOption_mem_isSome _ _ _ hlms t hin
        · exact mapOption_mem_isSome _ _ _ hums t hin

/-- Peptidoform whose only unresolvable item is the fixed-rule tag. -/
def exPep7 : Peptidoform :=
  ⟨[("A", [])], { exProps with fixed_modifications := some [badRule] }⟩

/-- C7 counterexample: a modification tag (the fixed-rule tag) fails to
resolve, yet the computation aborts with a raw builtin `KeyError` — not a
`ModificationException` and not a domain error at all — because the lookup at
lines 82–85 sits outside every `try/except`. -/
theorem claim_C7_counterexample :
    sequential_composition exEnv exPep7 = .error ⟨.keyError, "Unknown"⟩ ∧
    PyExcClass.keyError ≠ PyExcClass.modificationException ∧
    isSubclassOfPeptidoformException .keyError = false :=
  ⟨rfl, by decide, rfl⟩

/-- C7 amended: for computations whose fixed-modification rule tags resolve,
the error discipline is as claimed: a computation returns a value or aborts
with a single error (`Except` forbids partial results); when any of the four
computations succeeds, every tag and residue it traverses resolves — in
particular `composition`/`theoretical_mass` can only return a value when all
labile and unlocalized tags resolve, so an unresolvable tag in any traversed
category forces an abort; and when a computation aborts, its error is a
`ModificationException` whose message carries the label of an unresolvable tag
of the peptidoform, or an `AmbiguousResidueException` whose message carries an
unresolvable residue code of the sequence.  (A fixed-rule tag that fails to
resolve instead escapes as a raw `KeyError`, per the counterexample.) -/
theorem claim_C7 (env : Env) (p : Peptidoform) (rules : List ModificationRule)
    (hfix : p.properties.fixed_modifications = some rules)
    (hresc : ∀ r, r ∈ rules → (r.modification_tag.composition).isSome)
    (hresm : ∀ r, r ∈ rules → (r.modification_tag.mass).isSome) :
    (∀ l, sequential_composition env p = .ok l →
      (∀ t, seqTagIn p t → (t.composition).isSome) ∧
      (∀ pos, pos ∈ p.parsed_sequence → (env.std_aa_comp pos.1).isSome)) ∧
    (∀ l, sequential_theoretical_mass env p = .ok l →
      (∀ t, seqTagIn p t → (t.mass).isSome) ∧
      (∀ pos, pos ∈ p.parsed_sequence → (env.std_aa_mass pos.1).isSome)) ∧
    (∀ c, wholeComposition env p = .ok c →
      (∀ t, allTagIn p t → (t.composition).isSome) ∧
      (∀ pos, pos ∈ p.parsed_sequence → (env.std_aa_comp pos.1).isSome)) ∧
    (∀ q, theoretical_mass env p = .ok q →
      (∀ t, allTagIn p t → (t.mass).isSome) ∧
      (∀ pos, pos ∈ p.parsed_sequence → (env.std_aa_mass pos.1).isSome)) ∧
    (∀ e, sequential_composition env p = .error e →
      (∃ t, seqTagIn p t ∧ t.composition = none ∧ e = modCompExc t.value) ∨
      (∃ pos, pos ∈ p.parsed_sequence ∧ env.std_aa_comp pos.1 = none ∧
        e = ambCompExc pos.1)) ∧
    (∀ e, wholeComposition env p = .error e →
      (∃ t, allTagIn p t ∧ t.composition = none ∧ e = modCompExc t.value) ∨
      (∃ pos, pos ∈ p.parsed_sequence ∧ env.std_aa_comp pos.1 = none ∧
        e = ambCompExc pos.1)) ∧
    (∀ e, sequential_theoretical_mass env p = .error e →
      (∃ t, seqTagIn p t ∧ t.mass = none ∧ e = modMassExc t.value) ∨
      (∃ pos, pos ∈ p.parsed_sequence ∧ env.std_aa_mass pos.1 = none ∧
        e = ambMassExc pos.1)) ∧
    (∀ e, theoretical_mass env p = .error e →
      (∃ t, allTagIn p t ∧ t.mass = none ∧ e = modMassExc t.value) ∨
      (∃ pos, pos ∈ p.parsed_sequence ∧ env.std_aa_mass pos.1 = none ∧
        e = ambMassExc pos.1)) :=
  ⟨fun l h => sequential_composition_ok_resolves env p l h,
   fun l h => sequential_theoretical_mass_ok_resolves env p l h,
   fun c h => wholeComposition_ok_resolves env p c h,
   fun q h => theoretical_mass_ok_resolves env p q h,
   fun e h => sequential_composition_error_char env p rules e hfix hresc h,
   fun e h => wholeComposition_error_char env p rules e hfix hresc h,
   fun e h => sequential_theoretical_mass_error_char env p rules e hfix hresm h,
   fun e h => theoretical_mass_error_char env p rules e hfix hresm h⟩

/-- Witness for C7: applying the amended theorem at concrete peptidoforms whose
computations succeed shows the positional oxidation tag resolves (sequential
conjunct) and the unlocalized carbamidomethyl tag resolves (aggregate
conjunct). -/
theorem claim_C7_witness :
    (Tag.composition tagOx).isSome = true ∧
    (Tag.composition tagCam).isSome = true := by
  have h := claim_C7 exEnv exPep2 [] rfl (by simp) (by simp)
  have h1 := claim_C7 exEnv exPep1 [] rfl (by simp) (by simp)
  refine ⟨?_, ?_⟩
  · exact (h.1 [compH + unitComp "C" 2, stdAComp + unitComp "O" 1,
        compHO + unitComp "O" 1] (by rfl)).1 tagOx
      (Or.inr (Or.inl ⟨("A", [tagOx]), by simp [exPep2], by simp⟩))
  · exact (h1.2.2.1 ((fun _ => (0 : Int)) + compH + stdAComp + compHO +
        unitComp "O" 1 + unitComp "N" 1) (by rfl)).1 tagCam
      (Or.inr (Or.inr (by simp [exPep1, exProps])))

/-- Properties carrying an isotope declaration. -/
def isoProps : Properties := { exProps with isotopes := ["13C"] }

/-- C8 counterexample: construction with isotopic labeling does fail fast, but
the raised error is the builtin `NotImplementedError`, which is NOT a subtype
of the shared domain-error category (`PeptidoformException`); no
`UnsupportedFeatureError` exists in the code. -/
theorem claim_C8_counterexample :
    mkPeptidoform [] isoProps =
      .error ⟨.notImplementedError,
        "Peptidoforms with isotopes are currently not supported."⟩ ∧
    isSubclassOfPeptidoformException .notImplementedError = false :=
  ⟨rfl, rfl⟩

/-- C8 amended: when the input encodes isotopic labeling, construction fails
fast — but with the builtin `NotImplementedError`, which is not a subtype of
the shared domain-error category; only `AmbiguousResidueException` and
`ModificationException` are subtypes of `PeptidoformException`. -/
theorem claim_C8_amended (parsed : List (String × List Tag)) (props : Properties)
    (h : props.isotopes ≠ []) :
    mkPeptidoform parsed props =
      .error ⟨.notImplementedError,
        "Peptidoforms with isotopes are currently not supported."⟩ ∧
    isSubclassOfPeptidoformException .notImplementedError = false ∧
    isSubclassOfPeptidoformException .ambiguousResidueException = true ∧
    isSubclassOfPeptidoformException .modificationException = true := by
  refine ⟨?_, rfl, rfl, rfl⟩
  rw [mkPeptidoform, if_neg]
  simpa using h

/-- Witness for the amended C8 at a concrete input. -/
theorem claim_C8_amended_witness :
    mkPeptidoform [] isoProps =
      .error ⟨.notImplementedError,
        "Peptidoforms with isotopes are currently not supported."⟩ ∧
    isSubclassOfPeptidoformException .notImplementedError = false ∧
    isSubclassOfPeptidoformException .ambiguousResidueException = true ∧
    isSubclassOfPeptidoformException .modificationException = true :=
  claim_C8_amended [] isoProps (by simp [isoProps, exProps])

/-- C9: `theoretical_mz` returns `none` (absence, not an error) when the
precursor charge is absent or zero; otherwise, whenever the theoretical mass
computes to `mval`, it returns `(mval + nist_mass_H1 * c) / c`, where the
proton mass is the environment's hydrogen-1 table entry (universally
quantified over the environment, hence not a hardcoded constant). -/
theorem claim_C9 (env : Env) (p : Peptidoform) :
    ((precursor_charge p = none ∨ precursor_charge p = some 0) →
      theoretical_mz env p = .ok none) ∧
    (∀ (c : Int) (mval : ℚ), precursor_charge p = some c → c ≠ 0 →
      theoretical_mass env p = .ok mval →
      theoretical_mz env p =
        .ok (some ((mval + env.nist_mass_H1 * (c : ℚ)) / (c : ℚ)))) := by
  constructor
  · intro hc
    rcases hc with hc | hc <;> rw [theoretical_mz, hc]
    simp
  · intro c mval hc hc0 hmass
    rw [theoretical_mz, hc]
    simp only [if_neg hc0, bind, Except.bind, hmass]
    rfl

/-- Empty peptidoform with charge 2. -/
def exPep9 : Peptidoform := ⟨[], { exProps with charge_state := some 2 }⟩

/-- Empty peptidoform with no charge information. -/
def exPep9none : Peptidoform := ⟨[], exProps⟩

/-- Witness for C9 at concrete charged and uncharged peptidoforms. -/
theorem claim_C9_witness :
    theoretical_mz exEnv exPep9 =
      .ok (some (((0 + 1 + (1 + 16) : ℚ) + exEnv.nist_mass_H1 * ((2 : Int) : ℚ)) /
        ((2 : Int) : ℚ))) ∧
    theoretical_mz exEnv exPep9none = .ok none :=
  ⟨(claim_C9 exEnv exPep9).2 2 (0 + 1 + (1 + 16)) (by rfl) (by decide) (by rfl),
   (claim_C9 exEnv exPep9none).1 (Or.inl rfl)⟩

/-- C10: comparing a Peptidoform with any object lacking a `proforma`
attribute raises an exception (the `raise NotImplemented(...)` in the except
branch calls the non-callable sentinel, a `TypeError`) — it never returns a
boolean or the sentinel; between two Peptidoforms, equality is exactly equality
of the canonical serialized texts, and the hash is a function of that text, so
equal texts give equal hashes. -/
theorem claim_C10 (env : Env) (p q : Peptidoform) (o : PyObject) :
    (o.proforma = none →
      pfEq env p o = .error ⟨.typeError, "NotImplemented is not callable"⟩) ∧
    pfEq env p (Peptidoform.asObject env q) =
      .ok (decide (proformaText env p = proformaText env q)) ∧
    (proformaText env p = proformaText env q →
      pfEq env p (Peptidoform.asObject env q) = .ok true ∧
        pfHash env p = pfHash env q) := by
  refine ⟨?_, ?_, ?_⟩
  · intro ho
    rw [pfEq, ho]
  · rw [pfEq, Peptidoform.asObject]
  · intro hpq
    constructor
    · rw [pfEq, Peptidoform.asObject]
      simp [hpq]
    · rw [pfHash, pfHash, hpq]

/-- Witness for C10 at concrete peptidoforms and a proforma-less object. -/
theorem claim_C10_witness :
    pfEq exEnv exPep1 ⟨none⟩ =
      .error ⟨.typeError, "NotImplemented is not callable"⟩ ∧
    pfHash exEnv exPep1 = pfHash exEnv exPep1 :=
  ⟨(claim_C10 exEnv exPep1 exPep1 ⟨none⟩).1 rfl,
   ((claim_C10 exEnv exPep1 exPep1 ⟨none⟩).2.2 rfl).2⟩

end PsmUtils
